import Mathlib

/-!
Verification of the PriceChange repository: two xlwings batch utilities, a
plain find/replace engine (`excel_find_replace_columns current.py`) and a
rule-driven search-and-update engine (`excel_processor.py`).

The embedding below translates the pure core of both scripts to Lean:
the column-spec expressions, the case/whitespace normalisation helpers, the
chunked scan-and-replace engine and the rule-grouped lookup-and-update
engine.  Worksheets are modelled as grids of cell values
(`Grid := List (List CellValue)`); the xlwings automation layer (opening
workbooks, saving, row-height touch-ups, protection handling) is out of
scope.  Python exceptions raised by a cell access are modelled by the
engines' own skip behaviour; machine-level details that the scripts never
exercise with well-formed configuration (negative column indices reaching
xlwings) are modelled as empty reads and no-op writes.

Strings are modelled over their character lists; the Python `str` methods
used by the scripts (`upper`, `lower`, `strip`, `split`) are embedded
character by character with ASCII case mapping, which agrees with Python on
the ASCII strings the scripts manipulate (`unicodedata.normalize('NFKC', ·)`
is the identity there).
-/

set_option maxHeartbeats 1000000
set_option maxRecDepth 4000

/-- ASCII model of Python `str.upper` on one character. -/
def asciiUpper (c : Char) : Char :=
  if 97 ≤ c.toNat ∧ c.toNat ≤ 122 then Char.ofNat (c.toNat - 32) else c

/-- ASCII model of Python `str.lower` on one character. -/
def asciiLower (c : Char) : Char :=
  if 65 ≤ c.toNat ∧ c.toNat ≤ 90 then Char.ofNat (c.toNat + 32) else c

/-- Python `str.upper` (ASCII fragment). -/
def pyUpper (s : String) : String := ⟨s.data.map asciiUpper⟩

/-- Python `str.lower` (ASCII fragment). -/
def pyLower (s : String) : String := ⟨s.data.map asciiLower⟩

/-- Python `str.strip` on a character list: drop whitespace from both ends. -/
def pyStripList (l : List Char) : List Char :=
  ((l.dropWhile Char.isWhitespace).reverse.dropWhile Char.isWhitespace).reverse

/-- Python `str.strip`. -/
def pyStrip (s : String) : String := ⟨pyStripList s.data⟩

/-- Worker for `splitOnChar`: `acc` holds the current field reversed. -/
def splitOnCharAux (sep : Char) : List Char → List Char → List (List Char)
  | acc, [] => [acc.reverse]
  | acc, c :: rest =>
    if c = sep then acc.reverse :: splitOnCharAux sep [] rest
    else splitOnCharAux sep (c :: acc) rest

/-- Python `str.split(sep)` for a one-character separator: fields between
occurrences of `sep`, empty fields kept, `[""]` for the empty string. -/
def splitOnChar (sep : Char) (l : List Char) : List (List Char) :=
  splitOnCharAux sep [] l

/-- `column_letter_to_index` (both scripts): uppercase the letters, read them
as a bijective base-26 numeral with digits `ord(char) - ord('A') + 1`, and
subtract one for a zero-based index.  Python ints are unbounded, so the
result is an `Int` (garbage input can go negative, e.g. the empty string
gives `-1`). -/
def column_letter_to_index (col_letter : String) : Int :=
  ((pyUpper col_letter).data.foldl
    (fun result char => result * 26 + ((char.toNat : Int) - 64)) 0) - 1

/-- The `while temp > 0` loop of `column_index_to_letter`
(`excel_processor.py` lines 135-143, inlined at lines 138-143 of the
find/replace script): peel bijective base-26 digits from `temp`, emitting
`chr(temp % 26 + ord('A'))` at the front.  The loop runs at most `temp`
times, so `temp` itself serves as structural fuel. -/
def idxCharsFuel : Nat → Nat → List Char
  | 0, _ => []
  | _ + 1, 0 => []
  | fuel + 1, temp =>
    idxCharsFuel fuel ((temp - 1) / 26) ++ [Char.ofNat ((temp - 1) % 26 + 65)]

/-- `column_index_to_letter` (`excel_processor.py` lines 135-143): convert a
zero-based column index back to spreadsheet letters; non-positive `temp`
skips the loop and yields the empty string. -/
def column_index_to_letter (col_index : Int) : String :=
  ⟨idxCharsFuel (col_index + 1).toNat (col_index + 1).toNat⟩

/-- One `columns.add(idx)` step of `parse_column_range`: the Python `set` of
collected indices, represented throughout as its strictly sorted element
list (which is exactly what the final `sorted(list(columns))` returns). -/
def setAdd : List Int → Int → List Int
  | [], x => [x]
  | y :: t, x =>
    if x < y then x :: y :: t
    else if x = y then y :: t
    else y :: setAdd t x

/-- Python `range(a, b + 1)` over integers: `a, a+1, ..., b`, empty when
`b < a`. -/
def rangeInt (a b : Int) : List Int :=
  (List.range (b + 1 - a).toNat).map (fun i => a + (i : Int))

/-- One comma-separated part of `parse_column_range` (find/replace script
lines 108-118).  A part containing a colon is unpacked as
`start_col, end_col = part.split(':')`, which raises a `ValueError` when the
split has more than two fields — modelled as `Except.error`.  A part without
a colon is a single column letter. -/
def parsePart (columns : List Int) (part : List Char) : Except Unit (List Int) :=
  match splitOnChar ':' part with
  | [single] => .ok (setAdd columns (column_letter_to_index ⟨single⟩))
  | [start_col, end_col] =>
    let start_idx := column_letter_to_index ⟨pyStripList start_col⟩
    let end_idx := column_letter_to_index ⟨pyStripList end_col⟩
    .ok ((rangeInt start_idx end_idx).foldl setAdd columns)
  | _ => .error ()

/-- `parse_column_range` (find/replace script lines 92-120): a falsy (empty)
spec returns `None` (no restriction, `Option.none` here); otherwise the spec
is split on commas, each part stripped and parsed, and the collected set is
returned sorted ascending.  `Except.error` models the uncaught `ValueError`
on a part with two or more colons. -/
def parse_column_range (column_spec : String) : Except Unit (Option (List Int)) :=
  if column_spec = "" then .ok none
  else
    match ((splitOnChar ',' column_spec.data).map pyStripList).foldlM parsePart [] with
    | .ok columns => .ok (some columns)
    | .error e => .error e

/-- A character is an ASCII letter. -/
def isAsciiLetterP (c : Char) : Prop :=
  (65 ≤ c.toNat ∧ c.toNat ≤ 90) ∨ (97 ≤ c.toNat ∧ c.toNat ≤ 122)

instance (c : Char) : Decidable (isAsciiLetterP c) := by
  unfold isAsciiLetterP; infer_instance

/-- A character is an uppercase ASCII letter `A`..`Z`. -/
def isUpperAZ (c : Char) : Prop := 65 ≤ c.toNat ∧ c.toNat ≤ 90

instance (c : Char) : Decidable (isUpperAZ c) := by
  unfold isUpperAZ; infer_instance

/-- Every comma part of the spec splits on `:` into at most two fields, so
the `start_col, end_col = part.split(':')` unpacking cannot raise. -/
def partsOkay (spec : String) : Prop :=
  ∀ p ∈ (splitOnChar ',' spec.data).map pyStripList, (splitOnChar ':' p).length ≤ 2

instance (spec : String) : Decidable (partsOkay spec) := by
  unfold partsOkay; infer_instance

/-- Strict length-then-lexicographic comparison of letter sequences: the
spreadsheet column order `A < B < ... < Z < AA < AB < ...`. -/
def lexLt : List Char → List Char → Bool
  | [], [] => false
  | [], _ :: _ => true
  | _ :: _, [] => false
  | a :: s, b :: t =>
    if a.toNat < b.toNat then true
    else if a.toNat = b.toNat then lexLt s t
    else false

/-- Spreadsheet column order on letter strings: shorter sequences first,
ties broken lexicographically. -/
def colLt (s t : String) : Prop :=
  s.data.length < t.data.length ∨
    (s.data.length = t.data.length ∧ lexLt s.data t.data = true)

/-! ### Helper lemmas about the letter encoding -/

/-- `letterValN l` is the bijective base-26 value of an uppercase letter
sequence (one-based: `A = 1`, `Z = 26`, `AA = 27`). -/
def letterValN (l : List Char) : Nat :=
  l.foldl (fun r c => r * 26 + (c.toNat - 64)) 0

/-- Value of the all-`A` string of length `n`: the least value of any valid
letter sequence of that length. -/
def lbVal : Nat → Nat
  | 0 => 0
  | n + 1 => lbVal n * 26 + 1

theorem lbVal_mul (n : Nat) : 25 * lbVal n + 1 = 26 ^ n := by
  induction n with
  | zero => rfl
  | succ n ih =>
    have : (26 : Nat) ^ (n + 1) = 26 ^ n * 26 := pow_succ 26 n
    rw [this, ← ih]
    simp [lbVal]
    ring

theorem lbVal_mono : Monotone lbVal := by
  apply monotone_nat_of_le_succ
  intro n
  simp only [lbVal]
  omega

theorem letterFold_acc (l : List Char) (r : Nat) :
    l.foldl (fun a c => a * 26 + (c.toNat - 64)) r =
      r * 26 ^ l.length + letterValN l := by
  induction l generalizing r with
  | nil => simp [letterValN]
  | cons c t ih =>
    simp only [List.foldl_cons, List.length_cons]
    rw [ih (r * 26 + (c.toNat - 64))]
    have h0 : letterValN (c :: t) = (c.toNat - 64) * 26 ^ t.length + letterValN t := by
      simp only [letterValN, List.foldl_cons]
      rw [show (0 : Nat) * 26 + (c.toNat - 64) = c.toNat - 64 by ring]
      exact ih (c.toNat - 64)
    rw [h0, pow_succ]
    ring

theorem letterValN_cons (c : Char) (t : List Char) :
    letterValN (c :: t) = (c.toNat - 64) * 26 ^ t.length + letterValN t := by
  simp only [letterValN, List.foldl_cons]
  rw [show (0 : Nat) * 26 + (c.toNat - 64) = c.toNat - 64 by ring]
  exact letterFold_acc t (c.toNat - 64)

theorem letterValN_bounds (l : List Char) (h : ∀ c ∈ l, isUpperAZ c) :
    lbVal l.length ≤ letterValN l ∧ letterValN l ≤ 26 * lbVal l.length := by
  induction l with
  | nil => simp [letterValN, lbVal]
  | cons c t ih =>
    have hc : isUpperAZ c := h c (List.mem_cons_self c t)
    have ht := ih (fun x hx => h x (List.mem_cons_of_mem c hx))
    have hd1 : 1 ≤ c.toNat - 64 := by unfold isUpperAZ at hc; omega
    have hd2 : c.toNat - 64 ≤ 26 := by unfold isUpperAZ at hc; omega
    have hpow : 25 * lbVal t.length + 1 = 26 ^ t.length := lbVal_mul t.length
    rw [letterValN_cons]
    constructor
    · have : lbVal (t.length + 1) = lbVal t.length * 26 + 1 := rfl
      rw [List.length_cons, this]
      nlinarith [ht.1]
    · have : lbVal (t.length + 1) = lbVal t.length * 26 + 1 := rfl
      rw [List.length_cons, this]
      nlinarith [ht.2]

theorem letterValN_lt_of_lexLt (s t : List Char) (hlen : s.length = t.length)
    (hs : ∀ c ∈ s, isUpperAZ c) (ht : ∀ c ∈ t, isUpperAZ c)
    (hlex : lexLt s t = true) : letterValN s < letterValN t := by
  induction s generalizing t with
  | nil =>
    cases t with
    | nil => simp [lexLt] at hlex
    | cons b u => simp at hlen
  | cons a s ih =>
    cases t with
    | nil => simp at hlen
    | cons b u =>
      have hlen' : s.length = u.length := by
        simpa using hlen
      have ha : isUpperAZ a := hs a (List.mem_cons_self a s)
      have hb : isUpperAZ b := ht b (List.mem_cons_self b u)
      have hs' : ∀ c ∈ s, isUpperAZ c := fun c hc => hs c (List.mem_cons_of_mem a hc)
      have hu' : ∀ c ∈ u, isUpperAZ c := fun c hc => ht c (List.mem_cons_of_mem b hc)
      have hsb := letterValN_bounds s hs'
      have hub := letterValN_bounds u hu'
      have hpow : 25 * lbVal u.length + 1 = 26 ^ u.length := lbVal_mul u.length
      rw [letterValN_cons, letterValN_cons, hlen']
      by_cases hab : a.toNat < b.toNat
      · have hd : a.toNat - 64 + 1 ≤ b.toNat - 64 := by
          unfold isUpperAZ at ha hb; omega
        rw [hlen'] at hsb
        nlinarith [hsb.2, hub.1]
      · simp only [lexLt, hab, if_false] at hlex
        by_cases heq : a.toNat = b.toNat
        · rw [if_pos heq] at hlex
          have := ih u hlen' hs' hu' hlex
          rw [heq]
          omega
        · rw [if_neg heq] at hlex
          exact absurd hlex (by simp)

theorem letterValN_lt_of_shorter (s t : List Char) (hlen : s.length < t.length)
    (hs : ∀ c ∈ s, isUpperAZ c) (ht : ∀ c ∈ t, isUpperAZ c) :
    letterValN s < letterValN t := by
  have hsb := letterValN_bounds s hs
  have htb := letterValN_bounds t ht
  have h1 : 26 * lbVal s.length < lbVal (s.length + 1) := by
    simp only [lbVal]; omega
  have h2 : lbVal (s.length + 1) ≤ lbVal t.length := lbVal_mono hlen
  omega

theorem idxCharsFuel_irrel (f1 : Nat) : ∀ f2 temp, temp ≤ f1 → temp ≤ f2 →
    idxCharsFuel f1 temp = idxCharsFuel f2 temp := by
  induction f1 with
  | zero =>
    intro f2 temp h1 _
    interval_cases temp
    cases f2 <;> rfl
  | succ f1 ih =>
    intro f2 temp h1 h2
    cases temp with
    | zero => cases f2 <;> rfl
    | succ temp =>
      cases f2 with
      | zero => omega
      | succ f2 =>
        simp only [idxCharsFuel]
        congr 1
        apply ih
        · have := Nat.div_le_self temp 26
          omega
        · have := Nat.div_le_self temp 26
          omega

/-- The digit-peeling loop at its natural fuel. -/
def idxChars (temp : Nat) : List Char := idxCharsFuel temp temp

theorem idxChars_step (v d : Nat) (h1 : 1 ≤ d) (h2 : d ≤ 26) :
    idxChars (v * 26 + d) = idxChars v ++ [Char.ofNat (d - 1 + 65)] := by
  have htemp : v * 26 + d = (v * 26 + d - 1) + 1 := by omega
  have hdiv : (v * 26 + d - 1) / 26 = v := by omega
  have hmod : (v * 26 + d - 1) % 26 = d - 1 := by omega
  unfold idxChars
  rw [htemp]
  simp only [idxCharsFuel, Nat.add_sub_cancel]
  rw [hdiv, hmod]
  congr 1
  apply idxCharsFuel_irrel
  · omega
  · omega

theorem idxChars_letterValN (l : List Char) (h : ∀ c ∈ l, isUpperAZ c) :
    idxChars (letterValN l) = l := by
  induction l using List.reverseRecOn with
  | nil => rfl
  | append_singleton t c ih =>
    have hc : isUpperAZ c := h c (by simp)
    have ht : ∀ x ∈ t, isUpperAZ x := fun x hx => h x (by simp [hx])
    have happ : letterValN (t ++ [c]) = letterValN t * 26 + (c.toNat - 64) := by
      simp [letterValN, List.foldl_append]
    rw [happ, idxChars_step (letterValN t) (c.toNat - 64)
      (by unfold isUpperAZ at hc; omega) (by unfold isUpperAZ at hc; omega),
      ih ht]
    have : c.toNat - 64 - 1 + 65 = c.toNat := by unfold isUpperAZ at hc; omega
    rw [this, Char.ofNat_toNat]

theorem asciiUpper_valid (c : Char) (h : isUpperAZ c) : asciiUpper c = c := by
  unfold isUpperAZ at h
  unfold asciiUpper
  rw [if_neg (by omega)]

theorem map_asciiUpper_valid (l : List Char) (h : ∀ c ∈ l, isUpperAZ c) :
    l.map asciiUpper = l := by
  induction l with
  | nil => rfl
  | cons c t ih =>
    simp only [List.map_cons]
    rw [asciiUpper_valid c (h c (List.mem_cons_self c t)),
      ih (fun x hx => h x (List.mem_cons_of_mem c hx))]

theorem pyUpper_valid (s : String) (h : ∀ c ∈ s.data, isUpperAZ c) :
    pyUpper s = s := by
  unfold pyUpper
  rw [map_asciiUpper_valid s.data h]

theorem letterFoldInt_eq (l : List Char) (h : ∀ c ∈ l, isUpperAZ c) :
    ∀ r : Nat,
      l.foldl (fun result char => result * 26 + ((char.toNat : Int) - 64)) (r : Int) =
        ((l.foldl (fun a c => a * 26 + (c.toNat - 64)) r : Nat) : Int) := by
  induction l with
  | nil => intro r; rfl
  | cons c t ih =>
    intro r
    have hc : isUpperAZ c := h c (List.mem_cons_self c t)
    have ht : ∀ x ∈ t, isUpperAZ x := fun x hx => h x (List.mem_cons_of_mem c hx)
    simp only [List.foldl_cons]
    have hcast : (r : Int) * 26 + ((c.toNat : Int) - 64) =
        ((r * 26 + (c.toNat - 64) : Nat) : Int) := by
      unfold isUpperAZ at hc
      push_cast [Nat.cast_sub (show 64 ≤ c.toNat by omega)]
      ring
    rw [hcast]
    exact ih ht (r * 26 + (c.toNat - 64))

theorem column_letter_to_index_valid (s : String) (h : ∀ c ∈ s.data, isUpperAZ c) :
    column_letter_to_index s = (letterValN s.data : Int) - 1 := by
  unfold column_letter_to_index
  rw [pyUpper_valid s h]
  rw [show ((0 : Int) = ((0 : Nat) : Int)) by rfl]
  rw [letterFoldInt_eq s.data h 0]
  rfl

/-- Claim C3: for every valid column letter sequence, converting the letters
to a zero-based index (`column_letter_to_index`) and back
(`column_index_to_letter`) yields the original letters, and
`column_letter_to_index` is strictly increasing in spreadsheet column order
(shorter sequences first, ties lexicographic: `A < B < ... < Z < AA < ...`). -/
theorem claim3_roundtrip_and_strict_mono :
    (∀ s : String, s.data ≠ [] → (∀ c ∈ s.data, isUpperAZ c) →
      column_index_to_letter (column_letter_to_index s) = s) ∧
    (∀ s t : String, (∀ c ∈ s.data, isUpperAZ c) → (∀ c ∈ t.data, isUpperAZ c) →
      colLt s t → column_letter_to_index s < column_letter_to_index t) := by
  constructor
  · intro s _ h
    rw [column_letter_to_index_valid s h]
    unfold column_index_to_letter
    have hV : ((letterValN s.data : Int) - 1 + 1).toNat = letterValN s.data := by
      omega
    rw [hV]
    have := idxChars_letterValN s.data h
    unfold idxChars at this
    rw [this]
  · intro s t hs ht hlt
    rw [column_letter_to_index_valid s hs, column_letter_to_index_valid t ht]
    have : letterValN s.data < letterValN t.data := by
      rcases hlt with hshort | ⟨hlen, hlex⟩
      · exact letterValN_lt_of_shorter s.data t.data hshort hs ht
      · exact letterValN_lt_of_lexLt s.data t.data hlen hs ht hlex
    omega

/-- Witness for C3 at concrete columns `Z` (index 25) and `AA` (index 26). -/
theorem claim3_witness :
    column_index_to_letter (column_letter_to_index (String.mk ['Z'])) = String.mk ['Z'] ∧
    column_letter_to_index (String.mk ['Z']) < column_letter_to_index (String.mk ['A', 'A']) :=
  ⟨claim3_roundtrip_and_strict_mono.1 (String.mk ['Z']) (by decide) (by decide),
   claim3_roundtrip_and_strict_mono.2 (String.mk ['Z']) (String.mk ['A', 'A'])
     (by decide) (by decide) (Or.inl (by decide))⟩

/-! ### Helper lemmas about splitting, stripping and the collected index set -/

deriving instance DecidableEq for Except

theorem splitOnCharAux_ne_nil (sep : Char) :
    ∀ (l acc : List Char), splitOnCharAux sep acc l ≠ [] := by
  intro l
  induction l with
  | nil => intro acc; simp [splitOnCharAux]
  | cons c t ih =>
    intro acc
    unfold splitOnCharAux
    split
    · simp
    · exact ih (c :: acc)

theorem splitOnChar_ne_nil (sep : Char) (l : List Char) : splitOnChar sep l ≠ [] :=
  splitOnCharAux_ne_nil sep l []

theorem splitOnCharAux_no_sep (sep : Char) :
    ∀ (l acc : List Char), (∀ c ∈ l, c ≠ sep) →
      splitOnCharAux sep acc l = [acc.reverse ++ l] := by
  intro l
  induction l with
  | nil => intro acc _; simp [splitOnCharAux]
  | cons c t ih =>
    intro acc h
    unfold splitOnCharAux
    rw [if_neg (h c (List.mem_cons_self c t))]
    rw [ih (c :: acc) (fun x hx => h x (List.mem_cons_of_mem c hx))]
    simp

theorem splitOnChar_no_sep (sep : Char) (l : List Char) (h : ∀ c ∈ l, c ≠ sep) :
    splitOnChar sep l = [l] := by
  unfold splitOnChar
  rw [splitOnCharAux_no_sep sep l [] h]
  simp

theorem splitOnCharAux_with_sep (sep : Char) :
    ∀ (l1 acc l2 : List Char), (∀ c ∈ l1, c ≠ sep) →
      splitOnCharAux sep acc (l1 ++ sep :: l2) =
        (acc.reverse ++ l1) :: splitOnCharAux sep [] l2 := by
  intro l1
  induction l1 with
  | nil =>
    intro acc l2 _
    simp only [List.nil_append]
    have hstep : splitOnCharAux sep acc (sep :: l2) =
        if sep = sep then acc.reverse :: splitOnCharAux sep [] l2
        else splitOnCharAux sep (sep :: acc) l2 := rfl
    rw [hstep, if_pos rfl]
    simp
  | cons c t ih =>
    intro acc l2 h
    simp only [List.cons_append]
    have hstep : splitOnCharAux sep acc (c :: (t ++ sep :: l2)) =
        if c = sep then acc.reverse :: splitOnCharAux sep [] (t ++ sep :: l2)
        else splitOnCharAux sep (c :: acc) (t ++ sep :: l2) := rfl
    rw [hstep, if_neg (h c (List.mem_cons_self c t))]
    rw [ih (c :: acc) l2 (fun x hx => h x (List.mem_cons_of_mem c hx))]
    simp

theorem splitOnChar_pair (sep : Char) (l1 l2 : List Char)
    (h1 : ∀ c ∈ l1, c ≠ sep) (h2 : ∀ c ∈ l2, c ≠ sep) :
    splitOnChar sep (l1 ++ sep :: l2) = [l1, l2] := by
  unfold splitOnChar
  rw [splitOnCharAux_with_sep sep l1 [] l2 h1]
  rw [splitOnCharAux_no_sep sep l2 [] h2]
  simp

theorem dropWhile_no (p : Char → Bool) (l : List Char) (h : ∀ c ∈ l, p c = false) :
    l.dropWhile p = l := by
  induction l with
  | nil => rfl
  | cons c t _ =>
    rw [List.dropWhile_cons, if_neg (by rw [h c (List.mem_cons_self c t)]; simp)]

theorem pyStripList_id (l : List Char) (h : ∀ c ∈ l, c.isWhitespace = false) :
    pyStripList l = l := by
  unfold pyStripList
  rw [dropWhile_no Char.isWhitespace l h]
  rw [dropWhile_no Char.isWhitespace l.reverse
    (fun c hc => h c (List.mem_reverse.mp hc))]
  rw [List.reverse_reverse]

theorem isUpperAZ_not_ws (c : Char) (h : isUpperAZ c) : c.isWhitespace = false := by
  have h1 : c ≠ ' ' := by intro he; rw [he] at h; exact absurd h (by decide)
  have h2 : c ≠ '\t' := by intro he; rw [he] at h; exact absurd h (by decide)
  have h3 : c ≠ '\r' := by intro he; rw [he] at h; exact absurd h (by decide)
  have h4 : c ≠ '\n' := by intro he; rw [he] at h; exact absurd h (by decide)
  simp [Char.isWhitespace, h1, h2, h3, h4]

theorem isUpperAZ_ne_comma (c : Char) (h : isUpperAZ c) : c ≠ ',' := by
  intro he; subst he; exact absurd h (by decide)

theorem isUpperAZ_ne_colon (c : Char) (h : isUpperAZ c) : c ≠ ':' := by
  intro he; subst he; exact absurd h (by decide)

theorem mem_setAdd (l : List Int) (x a : Int) : a ∈ setAdd l x ↔ a = x ∨ a ∈ l := by
  induction l with
  | nil => simp [setAdd]
  | cons y t ih =>
    unfold setAdd
    by_cases h1 : x < y
    · rw [if_pos h1]; simp
    · rw [if_neg h1]
      by_cases h2 : x = y
      · rw [if_pos h2]; subst h2; simp
      · rw [if_neg h2]; simp [ih]; tauto

theorem setAdd_pairwise (l : List Int) (x : Int) (h : List.Pairwise (· < ·) l) :
    List.Pairwise (· < ·) (setAdd l x) := by
  induction l with
  | nil => simp [setAdd]
  | cons y t ih =>
    rw [List.pairwise_cons] at h
    unfold setAdd
    by_cases h1 : x < y
    · rw [if_pos h1]
      refine List.Pairwise.cons ?_ (List.Pairwise.cons h.1 h.2)
      intro b hb
      rcases List.mem_cons.mp hb with rfl | hbt
      · exact h1
      · exact lt_trans h1 (h.1 b hbt)
    · rw [if_neg h1]
      by_cases h2 : x = y
      · rw [if_pos h2]; exact List.Pairwise.cons h.1 h.2
      · rw [if_neg h2]
        refine List.Pairwise.cons ?_ (ih h.2)
        intro b hb
        rcases (mem_setAdd t x b).mp hb with rfl | hbt
        · omega
        · exact h.1 b hbt

theorem foldl_setAdd_pairwise (xs : List Int) : ∀ l, List.Pairwise (· < ·) l →
    List.Pairwise (· < ·) (xs.foldl setAdd l) := by
  induction xs with
  | nil => intro l h; exact h
  | cons x t ih => intro l h; exact ih (setAdd l x) (setAdd_pairwise l x h)

theorem parsePart_ok (acc : List Int) (p : List Char)
    (h : (splitOnChar ':' p).length ≤ 2) : ∃ cols, parsePart acc p = Except.ok cols := by
  cases hm : splitOnChar ':' p with
  | nil => exact absurd hm (splitOnChar_ne_nil ':' p)
  | cons x xs =>
    cases xs with
    | nil =>
      exact ⟨setAdd acc (column_letter_to_index ⟨x⟩), by unfold parsePart; rw [hm]⟩
    | cons y ys =>
      cases ys with
      | nil =>
        refine ⟨(rangeInt (column_letter_to_index ⟨pyStripList x⟩)
          (column_letter_to_index ⟨pyStripList y⟩)).foldl setAdd acc, ?_⟩
        unfold parsePart
        rw [hm]
      | cons z zs =>
        rw [hm] at h
        simp at h

theorem parsePart_pairwise (acc : List Int) (p : List Char) (cols : List Int)
    (hacc : List.Pairwise (· < ·) acc) (h : parsePart acc p = Except.ok cols) :
    List.Pairwise (· < ·) cols := by
  unfold parsePart at h
  cases hm : splitOnChar ':' p with
  | nil => exact absurd hm (splitOnChar_ne_nil ':' p)
  | cons x xs =>
    rw [hm] at h
    cases xs with
    | nil =>
      simp only [Except.ok.injEq] at h
      rw [← h]
      exact setAdd_pairwise acc _ hacc
    | cons y ys =>
      cases ys with
      | nil =>
        simp only [Except.ok.injEq] at h
        rw [← h]
        exact foldl_setAdd_pairwise _ acc hacc
      | cons z zs => exact Except.noConfusion h

theorem foldlM_parsePart_total : ∀ (parts : List (List Char)) (acc : List Int),
    (∀ p ∈ parts, (splitOnChar ':' p).length ≤ 2) →
    ∃ cols, List.foldlM parsePart acc parts = Except.ok cols := by
  intro parts
  induction parts with
  | nil => intro acc _; exact ⟨acc, rfl⟩
  | cons p ps ih =>
    intro acc h
    obtain ⟨v, hv⟩ := parsePart_ok acc p (h p (List.mem_cons_self p ps))
    obtain ⟨cols, hc⟩ := ih v (fun q hq => h q (List.mem_cons_of_mem p hq))
    refine ⟨cols, ?_⟩
    rw [List.foldlM_cons, hv]
    exact hc

theorem foldlM_parsePart_pairwise : ∀ (parts : List (List Char)) (acc cols : List Int),
    List.Pairwise (· < ·) acc → List.foldlM parsePart acc parts = Except.ok cols →
    List.Pairwise (· < ·) cols := by
  intro parts
  induction parts with
  | nil =>
    intro acc cols h hf
    rw [List.foldlM_nil] at hf
    have : acc = cols := Except.ok.inj hf
    rw [← this]; exact h
  | cons p ps ih =>
    intro acc cols h hf
    rw [List.foldlM_cons] at hf
    cases hp : parsePart acc p with
    | error e =>
      rw [hp] at hf
      exact Except.noConfusion hf
    | ok v =>
      rw [hp] at hf
      exact ih v cols (parsePart_pairwise acc p v h hp) hf

/-- Claim C8: the column-spec parser returns a strictly ascending (hence
deduplicated) list of zero-based indices; parsing `A,C:E,G` yields exactly
`[0, 2, 3, 4, 6]`; the empty spec yields the distinguished `none` ("no
restriction"), a different value from `some []` (the empty index set, as an
all-reversed-range spec such as `C:A` produces). -/
theorem claim8_sorted_dedup_and_no_restriction :
    parse_column_range "A,C:E,G" = Except.ok (some [0, 2, 3, 4, 6]) ∧
    parse_column_range "" = Except.ok none ∧
    parse_column_range "C:A" = Except.ok (some []) ∧
    (Except.ok (none : Option (List Int)) : Except Unit (Option (List Int))) ≠
      Except.ok (some []) ∧
    ∀ (cs : String) (l : List Int), parse_column_range cs = Except.ok (some l) →
      List.Pairwise (· < ·) l := by
  refine ⟨by decide, by decide, by decide, by decide, ?_⟩
  intro cs l h
  unfold parse_column_range at h
  by_cases hcs : cs = ""
  · rw [if_pos hcs] at h
    simp at h
  · rw [if_neg hcs] at h
    cases hf : ((splitOnChar ',' cs.data).map pyStripList).foldlM parsePart [] with
    | error e => rw [hf] at h; exact Except.noConfusion h
    | ok cols =>
      rw [hf] at h
      simp only [Except.ok.injEq, Option.some.injEq] at h
      rw [← h]
      exact foldlM_parsePart_pairwise _ [] cols List.Pairwise.nil hf

/-- Witness for C8's sortedness clause at the concrete spec `A,C:E,G`. -/
theorem claim8_witness : List.Pairwise (· < ·) ([0, 2, 3, 4, 6] : List Int) :=
  claim8_sorted_dedup_and_no_restriction.2.2.2.2 "A,C:E,G" [0, 2, 3, 4, 6] (by decide)

/-- Claim C1 (amended): `parse_column_range` never raises on malformed
characters or empty range parts.  It is pure and total — it returns
`Except.ok` — on every spec string whose comma-separated parts each contain
at most one colon (in particular on every well-formed spec of letters,
commas, colons and whitespace); the only failure is the `ValueError` of
unpacking a part with two or more colons.  Characters outside the alphabet
and empty range parts are accepted silently, flowing through the same
arithmetic (see `claim1_counterexample` for the indices this produces). -/
theorem claim1_total_on_wellformed_parts :
    ∀ spec : String, partsOkay spec → ∃ r, parse_column_range spec = Except.ok r := by
  intro spec h
  unfold parse_column_range
  by_cases hs : spec = ""
  · rw [if_pos hs]; exact ⟨none, rfl⟩
  · rw [if_neg hs]
    obtain ⟨cols, hc⟩ :=
      foldlM_parsePart_total ((splitOnChar ',' spec.data).map pyStripList) [] h
    rw [hc]
    exact ⟨some cols, rfl⟩

/-- Witness for C1 at the concrete (malformed) spec string `1`. -/
theorem claim1_witness : ∃ r, parse_column_range "1" = Except.ok r :=
  claim1_total_on_wellformed_parts "1" (by decide)

/-- Counterexample to C1 as stated: the spec string `1` contains a character
that is not an ASCII letter, comma, colon or whitespace, yet the parser does
not fail — it silently returns the nonsense index list `[-16]`.  Likewise
the spec `A:` has an empty range part and silently yields the empty index
list instead of an error. -/
theorem claim1_counterexample :
    (∃ c ∈ ("1" : String).data,
      ¬ (isAsciiLetterP c ∨ c = ',' ∨ c = ':' ∨ c.isWhitespace = true)) ∧
    parse_column_range "1" = Except.ok (some [-16]) ∧
    parse_column_range "A:" = Except.ok (some []) := by
  refine ⟨by decide, by decide, by decide⟩

/-- Claim C7: a range part whose start letter converts to a larger index
than its end letter contributes the empty set of indices, silently and
without error: for valid letter sequences `s` and `t` with
`index t < index s`, parsing the single-part spec `s:t` returns the empty
index list (`Python range(start, end + 1)` is empty when `end < start`). -/
theorem claim7_reversed_range_is_empty (s t : String)
    (hs : ∀ c ∈ s.data, isUpperAZ c) (ht : ∀ c ∈ t.data, isUpperAZ c)
    (hrev : column_letter_to_index t < column_letter_to_index s) :
    parse_column_range (s ++ ":" ++ t) = Except.ok (some []) := by
  have hdata : (s ++ ":" ++ t).data = s.data ++ ':' :: t.data := by
    simp [String.data_append]
  have hne : (s ++ ":" ++ t) ≠ "" := by
    intro he
    have : (s ++ ":" ++ t).data = [] := by rw [he]
    rw [hdata] at this
    cases s.data <;> simp at this
  unfold parse_column_range
  rw [if_neg hne, hdata]
  have hcomma : ∀ c ∈ s.data ++ ':' :: t.data, c ≠ ',' := by
    intro c hc
    rcases List.mem_append.mp hc with hcs | hct
    · exact isUpperAZ_ne_comma c (hs c hcs)
    · rcases List.mem_cons.mp hct with rfl | hct'
      · intro he; exact absurd he (by decide)
      · exact isUpperAZ_ne_comma c (ht c hct')
  rw [splitOnChar_no_sep ',' _ hcomma]
  have hws : ∀ c ∈ s.data ++ ':' :: t.data, c.isWhitespace = false := by
    intro c hc
    rcases List.mem_append.mp hc with hcs | hct
    · exact isUpperAZ_not_ws c (hs c hcs)
    · rcases List.mem_cons.mp hct with rfl | hct'
      · rfl
      · exact isUpperAZ_not_ws c (ht c hct')
  simp only [List.map_cons, List.map_nil]
  rw [pyStripList_id _ hws]
  have hsplit : splitOnChar ':' (s.data ++ ':' :: t.data) = [s.data, t.data] :=
    splitOnChar_pair ':' s.data t.data
      (fun c hc => isUpperAZ_ne_colon c (hs c hc))
      (fun c hc => isUpperAZ_ne_colon c (ht c hc))
  have hpart : parsePart [] (s.data ++ ':' :: t.data) = Except.ok [] := by
    unfold parsePart
    rw [hsplit]
    show Except.ok ((rangeInt (column_letter_to_index ⟨pyStripList s.data⟩)
      (column_letter_to_index ⟨pyStripList t.data⟩)).foldl setAdd []) = Except.ok []
    rw [pyStripList_id s.data (fun c hc => isUpperAZ_not_ws c (hs c hc))]
    rw [pyStripList_id t.data (fun c hc => isUpperAZ_not_ws c (ht c hc))]
    have hrange : rangeInt (column_letter_to_index ⟨s.data⟩)
        (column_letter_to_index ⟨t.data⟩) = [] := by
      unfold rangeInt
      have hz : (column_letter_to_index ⟨t.data⟩ + 1 -
          column_letter_to_index ⟨s.data⟩).toNat = 0 := by
        have hs' : (⟨s.data⟩ : String) = s := rfl
        have ht' : (⟨t.data⟩ : String) = t := rfl
        rw [hs', ht']
        omega
      rw [hz]
      rfl
    rw [hrange]
    rfl
  have hfold : List.foldlM parsePart [] [s.data ++ ':' :: t.data] = Except.ok [] := by
    rw [List.foldlM_cons, hpart]
    rfl
  rw [hfold]

/-- Witness for C7 at the concrete reversed range `C:A`. -/
theorem claim7_witness : parse_column_range ("C" ++ ":" ++ "A") = Except.ok (some []) :=
  claim7_reversed_range_is_empty "C" "A" (by decide) (by decide) (by decide)

/-! ### The worksheet model shared by both engines -/

/-- A cell value as the scripts observe it through xlwings: Python `None`,
a text cell, or a numeric cell (modelled at integer values, where Python
`str` agrees with `toString`).  Floating-point display formatting is never
relied on by the scripts' logic. -/
inductive CellValue where
  | vnone : CellValue
  | vstr : String → CellValue
  | vint : Int → CellValue
deriving DecidableEq

/-- Python truthiness of a cell value (`if not search_cell_value: continue`):
`None`, the empty string and zero are falsy. -/
def cellTruthy : CellValue → Bool
  | .vnone => false
  | .vstr s => decide (s ≠ "")
  | .vint n => decide (n ≠ 0)

/-- Python `str(value)` on the modelled cell values. -/
def pyStr : CellValue → String
  | .vnone => "None"
  | .vstr s => s
  | .vint n => toString n

/-- A worksheet's used range: a list of rows, each a list of cell values. -/
abbrev Grid := List (List CellValue)

/-- `used_range.shape` row count. -/
def gridRows (g : Grid) : Nat := g.length

/-- `used_range.shape` column count: the width of the used range. -/
def gridCols (g : Grid) : Int := ((g.map List.length).foldl max 0 : Nat)

/-- `used_range[row_idx, col_idx].value`.  Reads outside the grid give
`None`; a negative column index (unreachable from well-formed
configuration) is modelled as an empty read. -/
def getCell (g : Grid) (r : Nat) (c : Int) : CellValue :=
  if c < 0 then .vnone else (g.getD r []).getD c.toNat .vnone

/-- `used_range[row_idx, col_idx].value = v`.  Writes outside the grid (or
to a negative column) are no-ops: the engines only write cells they just
read as populated. -/
def setCell (g : Grid) (r : Nat) (c : Int) (v : CellValue) : Grid :=
  if c < 0 then g else g.set r ((g.getD r []).set c.toNat v)

/-- Python dict assignment `d[k] = v`: replace the key's value in place, or
append the new key at the end (dicts preserve insertion order). -/
def dictSet : List (String × Nat) → String → Nat → List (String × Nat)
  | [], k, v => [(k, v)]
  | (k', v') :: rest, k, v =>
    if k' = k then (k', v) :: rest else (k', v') :: dictSet rest k v

/-- Python dict increment `d[k] += n` (the scripts only increment keys that
are already present; an absent key is appended). -/
def dictAdd : List (String × Nat) → String → Nat → List (String × Nat)
  | [], k, n => [(k, n)]
  | (k', v') :: rest, k, n =>
    if k' = k then (k', v' + n) :: rest else (k', v') :: dictAdd rest k n

/-- Python dict read `d.get(k)`. -/
def dictGet (d : List (String × Nat)) (k : String) : Option Nat :=
  (d.find? (fun kv => kv.1 == k)).map (fun kv => kv.2)

/-- `sum(d.values())`. -/
def sumValues (d : List (String × Nat)) : Nat := (d.map (fun kv => kv.2)).sum

/-- Python `set.add` for the affected-row sets (order irrelevant). -/
def natSetAdd (l : List Nat) (x : Nat) : List Nat := if x ∈ l then l else x :: l

/-! ### The chunked find/replace engine (find/replace script lines 122-315) -/

/-- Case-insensitive prefix test on character lists: `re.IGNORECASE`
matching over the ASCII fragment compares both sides lowercased. -/
def startsWithCI : List Char → List Char → Bool
  | [], _ => true
  | _ :: _, [] => false
  | a :: f, b :: s => asciiLower a == asciiLower b && startsWithCI f s

/-- `re.subn(re.compile(re.escape(find), flags=re.IGNORECASE), repl, s)` on
character lists: scan left to right, replace each leftmost non-overlapping
case-insensitive occurrence of `find` with `repl`, and count the
substitutions.  Every step consumes at least one character of `s`, so the
length of `s` serves as structural fuel; the guard on the empty pattern
never fires for the scripts' (nonempty) find texts. -/
def subnFuel : Nat → List Char → List Char → List Char → List Char × Nat
  | 0, _, _, s => (s, 0)
  | _ + 1, _, _, [] => ([], 0)
  | fuel + 1, find, repl, c :: t =>
    if find ≠ [] ∧ startsWithCI find (c :: t) = true then
      let p := subnFuel fuel find repl ((c :: t).drop find.length)
      (repl ++ p.1, p.2 + 1)
    else
      let p := subnFuel fuel find repl t
      (c :: p.1, p.2)

/-- String-level `re.subn` with `IGNORECASE`: new value and match count. -/
def subnCI (find_text replace_text s : String) : String × Nat :=
  let p := subnFuel s.data.length find_text.data replace_text.data s.data
  (⟨p.1⟩, p.2)

/-- The per-cell pattern loop of `process_chunk` (lines 291-297): apply
every (find, replace) pair in declaration order to the progressively
modified cell value; whenever a pair matched, add its substitution count to
that pair's entry of the chunk dict and set the `modified` flag. -/
def apply_patterns (compiled_patterns : List (String × String)) (v : String)
    (d : List (String × Nat)) : String × List (String × Nat) × Bool :=
  compiled_patterns.foldl
    (fun acc p =>
      let r := subnCI p.1 p.2 acc.1
      if 0 < r.2 then (r.1, dictAdd acc.2.1 p.1 r.2, true) else acc)
    (v, d, false)

/-- State threaded through `process_chunk`: the grid, the chunk's
`chunk_replacements` dict, the affected 1-based row set, and a log of the
`cell.value = cell_value` write events `(row_idx, col_idx, new value)`. -/
structure ChunkState where
  grid : Grid
  chunk_replacements : List (String × Nat)
  affected_rows : List Nat
  writes : List (Nat × Int × String)
deriving DecidableEq

/-- One cell of `process_chunk` (lines 280-305): only a string cell with
truthy content and nonempty stripped text is eligible; if any pattern
matched, the cell is written exactly once with the final chained value and
its 1-based row joins the affected set. -/
def processCell (compiled_patterns : List (String × String)) (st : ChunkState)
    (row_idx : Nat) (col_idx : Int) : ChunkState :=
  match getCell st.grid row_idx col_idx with
  | .vstr s =>
    if s ≠ "" ∧ 0 < (pyStripList s.data).length then
      let r := apply_patterns compiled_patterns s st.chunk_replacements
      if r.2.2 then
        { grid := setCell st.grid row_idx col_idx (.vstr r.1),
          chunk_replacements := r.2.1,
          affected_rows := natSetAdd st.affected_rows (row_idx + 1),
          writes := st.writes ++ [(row_idx, col_idx, r.1)] }
      else
        { st with chunk_replacements := r.2.1 }
    else st
  | _ => st

/-- The effective column set of a row of `process_chunk` (lines 273-277): a
truthy (nonempty) restriction is filtered to `col_idx < cols`; a falsy one
(`None` or the empty list) falls back to the first `min(cols, 108)` columns
(`A:DD`). -/
def effectiveCols (target_column_indices : Option (List Int)) (cols : Int) : List Int :=
  match target_column_indices with
  | some l =>
    if l ≠ [] then l.filter (fun col_idx => col_idx < cols)
    else (List.range (min cols 108).toNat).map Int.ofNat
  | none => (List.range (min cols 108).toNat).map Int.ofNat

/-- One row of `process_chunk` (lines 271-309): visit every column of the
effective set in order. -/
def processRow (compiled_patterns : List (String × String))
    (target_column_indices : Option (List Int)) (cols : Int) (st : ChunkState)
    (row_idx : Nat) : ChunkState :=
  (effectiveCols target_column_indices cols).foldl
    (fun s col_idx => processCell compiled_patterns s row_idx col_idx) st

/-- `process_chunk` (lines 258-315): initialise the chunk dict with a zero
count per find text, then scan rows `start_row ≤ row_idx < end_row`. -/
def process_chunk (compiled_patterns : List (String × String))
    (target_column_indices : Option (List Int)) (cols : Int)
    (start_row end_row : Nat) (g : Grid) : ChunkState :=
  (List.range' start_row (end_row - start_row)).foldl
    (processRow compiled_patterns target_column_indices cols)
    { grid := g,
      chunk_replacements := compiled_patterns.foldl (fun d p => dictSet d p.1 0) [],
      affected_rows := [],
      writes := [] }

/-- Python `range(0, rows, chunk_size)`. -/
def chunkStarts (rows chunk_size : Nat) : List Nat :=
  (List.range ((rows + chunk_size - 1) / chunk_size)).map (fun i => i * chunk_size)

/-- Result of the sheet-level loop of the find/replace engine: total count,
per-find-text counts, affected row set, mutated grid and the write log. -/
structure SheetRunState where
  total_replacements : Nat
  replacement_details : List (String × Nat)
  affected : List Nat
  grid : Grid
  writes : List (Nat × Int × String)
deriving DecidableEq

/-- `for find_text, count in chunk.items(): replacement_details[find_text] += count`. -/
def mergeCounts (d chunk : List (String × Nat)) : List (String × Nat) :=
  chunk.foldl (fun acc kv => dictAdd acc kv.1 kv.2) d

/-- The body of the chunk loop of `process_sheet_in_chunks` (lines 216-240):
run one chunk on the current grid and, when the chunk dict is truthy (it
always holds one key per find text, so: whenever there are patterns), add
its total and merge its per-find counts and affected rows. -/
def chunkStep (replacement_pairs : List (String × String))
    (target_column_indices : Option (List Int)) (cols : Int) (rows chunk_size : Nat)
    (st : SheetRunState) (start_row : Nat) : SheetRunState :=
  let end_row := min (start_row + chunk_size) rows
  let ch := process_chunk replacement_pairs target_column_indices cols
    start_row end_row st.grid
  if ch.chunk_replacements ≠ [] then
    { total_replacements := st.total_replacements + sumValues ch.chunk_replacements,
      replacement_details := mergeCounts st.replacement_details ch.chunk_replacements,
      affected := ch.affected_rows.foldl natSetAdd st.affected,
      grid := ch.grid,
      writes := st.writes ++ ch.writes }
  else
    { st with grid := ch.grid, writes := st.writes ++ ch.writes }

/-- `process_sheet_in_chunks` (lines 182-256): initialise the per-find
details, partition `rows` into chunks of a size stepped on the row count,
and run `chunkStep` on each chunk.  The cosmetic row-height touch-up is not
modelled; per-chunk exception swallowing has nothing to swallow in the pure
model. -/
def process_sheet_in_chunks (g : Grid) (replacement_pairs : List (String × String))
    (rows : Nat) (cols : Int) (target_column_indices : Option (List Int)) :
    SheetRunState :=
  let chunk_size := if 100000 < rows then 500 else if 10000 < rows then 1000 else 5000
  (chunkStarts rows chunk_size).foldl
    (chunkStep replacement_pairs target_column_indices cols rows chunk_size)
    { total_replacements := 0,
      replacement_details := replacement_pairs.foldl (fun d p => dictSet d p.1 0) [],
      affected := [],
      grid := g,
      writes := [] }

/-- Python `max(l)` for a nonempty list (0 on the empty list, never used
there: the caller guards on truthiness). -/
def listMax : List Int → Int
  | [] => 0
  | x :: xs => xs.foldl max x

/-- The target-column resolution at the head of `process_sheet_intelligently`
(lines 130-133): a falsy (absent or empty) spec string means no restriction;
otherwise the spec is parsed (and a parse exception propagates to the
enclosing `try`). -/
def resolve_target_columns : Option String → Except Unit (Option (List Int))
  | none => Except.ok none
  | some tc => if tc = "" then Except.ok none else parse_column_range tc

/-- `process_sheet_intelligently` (lines 122-180): parse the optional column
spec (a parse exception is caught by the enclosing `try` and yields
`(0, {})` with the sheet untouched), model `used_range is None` as the empty
grid, cap the scan at the first `min(rows, 300)` rows, shrink `cols` to the
largest targeted column when the restriction is truthy, and run the chunked
scan. -/
def process_sheet_intelligently (g : Grid) (replacement_pairs : List (String × String))
    (target_columns : Option String) : SheetRunState :=
  match resolve_target_columns target_columns with
  | .error _ =>
    { total_replacements := 0, replacement_details := [], affected := [],
      grid := g, writes := [] }
  | .ok column_indices =>
    if gridRows g = 0 then
      { total_replacements := 0, replacement_details := [], affected := [],
        grid := g, writes := [] }
    else
      let rows := gridRows g
      let cols := gridCols g
      let rows_to_process := min rows 300
      let cols2 := match column_indices with
        | some l => if l ≠ [] then min cols (listMax l + 1) else cols
        | none => cols
      process_sheet_in_chunks g replacement_pairs rows_to_process cols2 column_indices

/-! ### Frame and counting lemmas for the find/replace engine -/

theorem getD_set {α : Type} (l : List α) (i j : Nat) (a d : α) :
    (l.set i a).getD j d = if i = j ∧ j < l.length then a else l.getD j d := by
  induction l generalizing i j with
  | nil => simp
  | cons x t ih =>
    cases i with
    | zero =>
      cases j with
      | zero => simp
      | succ j => simp
    | succ i =>
      cases j with
      | zero => simp
      | succ j =>
        have hset : (x :: t).set (i + 1) a = x :: t.set i a := rfl
        have hg1 : (x :: t.set i a).getD (j + 1) d = (t.set i a).getD j d := rfl
        have hg2 : (x :: t).getD (j + 1) d = t.getD j d := rfl
        rw [hset, hg1, hg2, ih]
        by_cases hcond : i = j ∧ j < t.length
        · rw [if_pos hcond, if_pos (by simp; omega)]
        · rw [if_neg hcond, if_neg (by simp; omega)]

theorem getCell_setCell_ne (g : Grid) (r : Nat) (c : Int) (v : CellValue)
    (r' : Nat) (c' : Int) (h : ¬ (r' = r ∧ c' = c)) :
    getCell (setCell g r c v) r' c' = getCell g r' c' := by
  unfold getCell setCell
  by_cases hc : c < 0
  · simp [hc]
  · by_cases hc' : c' < 0
    · simp [hc, hc']
    · simp only [if_neg hc, if_neg hc']
      rw [getD_set]
      by_cases hcond : r = r' ∧ r' < g.length
      · rw [if_pos hcond]
        obtain ⟨hr, _⟩ := hcond
        subst hr
        rw [getD_set]
        rw [if_neg ?hcc]
        case hcc =>
          rintro ⟨hcc, _⟩
          exact h ⟨rfl, by omega⟩
      · rw [if_neg hcond]

theorem subnFuel_zero_eq : ∀ (fuel : Nat) (find repl s : List Char),
    (subnFuel fuel find repl s).2 = 0 → (subnFuel fuel find repl s).1 = s := by
  intro fuel
  induction fuel with
  | zero => intro find repl s _; rfl
  | succ fuel ih =>
    intro find repl s h
    cases s with
    | nil => rfl
    | cons c t =>
      by_cases hm : find ≠ [] ∧ startsWithCI find (c :: t) = true
      · exfalso
        unfold subnFuel at h
        rw [if_pos hm] at h
        simp at h
      · unfold subnFuel at h ⊢
        rw [if_neg hm] at h ⊢
        simp only at h ⊢
        rw [ih find repl t h]

theorem subnCI_zero (f r s : String) (h : (subnCI f r s).2 = 0) :
    (subnCI f r s).1 = s := by
  unfold subnCI at h ⊢
  simp only at h ⊢
  rw [subnFuel_zero_eq _ _ _ _ h]

theorem dictGet_dictAdd_same : ∀ (d : List (String × Nat)) (k : String) (n a : Nat),
    dictGet d k = some a → dictGet (dictAdd d k n) k = some (a + n) := by
  intro d
  induction d with
  | nil => intro k n a h; simp [dictGet] at h
  | cons kv rest ih =>
    intro k n a h
    obtain ⟨k', v'⟩ := kv
    by_cases hk : k' = k
    · unfold dictAdd
      rw [if_pos hk]
      unfold dictGet at h ⊢
      rw [List.find?_cons_of_pos _ (by simp [hk])] at h ⊢
      simp at h
      simp [h]
    · unfold dictAdd
      rw [if_neg hk]
      unfold dictGet at h ⊢
      rw [List.find?_cons_of_neg _ (by simp [hk])] at h ⊢
      exact ih k n a h

theorem dictGet_dictAdd_ne : ∀ (d : List (String × Nat)) (k : String) (n : Nat)
    (k2 : String), k2 ≠ k → dictGet (dictAdd d k n) k2 = dictGet d k2 := by
  intro d
  induction d with
  | nil =>
    intro k n k2 hne
    unfold dictAdd dictGet
    rw [List.find?_cons_of_neg _ (by simp; exact fun he => hne he.symm)]
  | cons kv rest ih =>
    intro k n k2 hne
    obtain ⟨k', v'⟩ := kv
    by_cases hk : k' = k
    · unfold dictAdd
      rw [if_pos hk]
      unfold dictGet
      by_cases hk2 : k' = k2
      · exact absurd (hk2.symm.trans hk) hne
      · rw [List.find?_cons_of_neg _ (by simp [hk2]),
          List.find?_cons_of_neg _ (by simp [hk2])]
    · unfold dictAdd
      rw [if_neg hk]
      unfold dictGet
      by_cases hk2 : k' = k2
      · rw [List.find?_cons_of_pos _ (by simp [hk2]),
          List.find?_cons_of_pos _ (by simp [hk2])]
      · rw [List.find?_cons_of_neg _ (by simp [hk2]),
          List.find?_cons_of_neg _ (by simp [hk2])]
        exact ih k n k2 hne

theorem sumValues_dictAdd : ∀ (d : List (String × Nat)) (k : String) (n : Nat),
    sumValues (dictAdd d k n) = sumValues d + n := by
  intro d
  induction d with
  | nil => intro k n; simp [dictAdd, sumValues]
  | cons kv rest ih =>
    intro k n
    obtain ⟨k', v'⟩ := kv
    unfold dictAdd
    by_cases hk : k' = k
    · rw [if_pos hk]
      simp [sumValues]
      omega
    · rw [if_neg hk]
      simp [sumValues] at ih ⊢
      rw [ih k n]
      omega

theorem processCell_grid_frame (P : List (String × String)) (st : ChunkState)
    (r : Nat) (c : Int) (r2 : Nat) (c2 : Int) (h : ¬ (r2 = r ∧ c2 = c)) :
    getCell (processCell P st r c).grid r2 c2 = getCell st.grid r2 c2 := by
  unfold processCell
  split
  · split
    · dsimp only
      split
      · exact getCell_setCell_ne st.grid r c _ r2 c2 h
      · rfl
    · rfl
  · rfl

theorem foldCells_grid_frame (P : List (String × String)) (r : Nat) :
    ∀ (cl : List Int) (st : ChunkState) (r2 : Nat) (c2 : Int),
      (r2 ≠ r ∨ c2 ∉ cl) →
      getCell ((cl.foldl (fun s col_idx => processCell P s r col_idx) st).grid) r2 c2 =
        getCell st.grid r2 c2 := by
  intro cl
  induction cl with
  | nil => intro st r2 c2 _; rfl
  | cons c cl ih =>
    intro st r2 c2 h
    rw [List.foldl_cons]
    have h2 : r2 ≠ r ∨ c2 ∉ cl := by
      rcases h with h | h
      · exact Or.inl h
      · exact Or.inr (fun hm => h (List.mem_cons_of_mem c hm))
    rw [ih (processCell P st r c) r2 c2 h2]
    apply processCell_grid_frame
    intro hc
    obtain ⟨he1, he2⟩ := hc
    rcases h with h | h
    · exact h he1
    · rw [he2] at h
      exact h (List.mem_cons_self c cl)

theorem processRow_grid_frame (P : List (String × String))
    (tci : Option (List Int)) (cols : Int) (st : ChunkState) (row_idx : Nat)
    (r2 : Nat) (c2 : Int) (h : r2 ≠ row_idx ∨ c2 ∉ effectiveCols tci cols) :
    getCell (processRow P tci cols st row_idx).grid r2 c2 = getCell st.grid r2 c2 :=
  foldCells_grid_frame P row_idx (effectiveCols tci cols) st r2 c2 h

theorem foldRows_grid_frame (P : List (String × String))
    (tci : Option (List Int)) (cols : Int) :
    ∀ (rl : List Nat) (st : ChunkState) (r2 : Nat) (c2 : Int),
      (r2 ∉ rl ∨ c2 ∉ effectiveCols tci cols) →
      getCell ((rl.foldl (processRow P tci cols) st).grid) r2 c2 =
        getCell st.grid r2 c2 := by
  intro rl
  induction rl with
  | nil => intro st r2 c2 _; rfl
  | cons row rl ih =>
    intro st r2 c2 h
    rw [List.foldl_cons]
    have h2 : r2 ∉ rl ∨ c2 ∉ effectiveCols tci cols := by
      rcases h with h | h
      · exact Or.inl (fun hm => h (List.mem_cons_of_mem row hm))
      · exact Or.inr h
    rw [ih (processRow P tci cols st row) r2 c2 h2]
    apply processRow_grid_frame
    rcases h with h | h
    · exact Or.inl (fun he => h (he ▸ List.mem_cons_self row rl))
    · exact Or.inr h

theorem process_chunk_grid_frame (P : List (String × String))
    (tci : Option (List Int)) (cols : Int) (start_row end_row : Nat) (g : Grid)
    (r2 : Nat) (c2 : Int)
    (h : ¬ (start_row ≤ r2 ∧ r2 < end_row) ∨ c2 ∉ effectiveCols tci cols) :
    getCell (process_chunk P tci cols start_row end_row g).grid r2 c2 =
      getCell g r2 c2 := by
  unfold process_chunk
  apply foldRows_grid_frame
  rcases h with h | h
  · left
    intro hm
    rw [List.mem_range'_1] at hm
    omega
  · right
    exact h

theorem processCell_writes (P : List (String × String)) (st : ChunkState)
    (r : Nat) (c : Int) :
    (processCell P st r c).writes = st.writes ∨
    ∃ v, (processCell P st r c).writes = st.writes ++ [(r, c, v)] := by
  unfold processCell
  split
  · split
    · dsimp only
      split
      · right; exact ⟨_, rfl⟩
      · left; rfl
    · left; rfl
  · left; rfl

theorem foldCells_writes (P : List (String × String)) (r : Nat) :
    ∀ (cl : List Int) (st : ChunkState), cl.Nodup →
      ∃ ext, (cl.foldl (fun s col_idx => processCell P s r col_idx) st).writes =
          st.writes ++ ext ∧
        (∀ w ∈ ext, w.1 = r ∧ w.2.1 ∈ cl) ∧
        (ext.map (fun w => w.2.1)).Nodup := by
  intro cl
  induction cl with
  | nil => intro st _; exact ⟨[], by simp, by simp, by simp⟩
  | cons c cl ih =>
    intro st hnd
    rw [List.foldl_cons]
    have hc : c ∉ cl := (List.nodup_cons.mp hnd).1
    obtain ⟨ext, hext, hprop, hndup⟩ :=
      ih (processCell P st r c) (List.nodup_cons.mp hnd).2
    rcases processCell_writes P st r c with hw | ⟨v, hw⟩
    · refine ⟨ext, by rw [hext, hw], ?_, hndup⟩
      intro w hwm
      obtain ⟨h1, h2⟩ := hprop w hwm
      exact ⟨h1, List.mem_cons_of_mem c h2⟩
    · refine ⟨(r, c, v) :: ext, ?_, ?_, ?_⟩
      · rw [hext, hw]
        simp
      · intro w hwm
        rcases List.mem_cons.mp hwm with rfl | hwm2
        · exact ⟨rfl, List.mem_cons_self c cl⟩
        · obtain ⟨h1, h2⟩ := hprop w hwm2
          exact ⟨h1, List.mem_cons_of_mem c h2⟩
      · rw [List.map_cons]
        apply List.Nodup.cons
        · intro hmem
          rw [List.mem_map] at hmem
          obtain ⟨w, hwm, hwc⟩ := hmem
          have hwc2 : w.2.1 = c := by simpa using hwc
          apply hc
          rw [← hwc2]
          exact (hprop w hwm).2
        · exact hndup

theorem foldRows_writes (P : List (String × String)) (tci : Option (List Int))
    (cols : Int) (heff : (effectiveCols tci cols).Nodup) :
    ∀ (rl : List Nat) (st : ChunkState), rl.Nodup →
      ∃ ext, (rl.foldl (processRow P tci cols) st).writes = st.writes ++ ext ∧
        (∀ w ∈ ext, w.1 ∈ rl) ∧
        (ext.map (fun w => (w.1, w.2.1))).Nodup := by
  intro rl
  induction rl with
  | nil => intro st _; exact ⟨[], by simp, by simp, by simp⟩
  | cons row rl ih =>
    intro st hnd
    rw [List.foldl_cons]
    have hrow : row ∉ rl := (List.nodup_cons.mp hnd).1
    obtain ⟨ext1, hext1, hprop1, hnd1⟩ :=
      foldCells_writes P row (effectiveCols tci cols) st heff
    have hext1b : (processRow P tci cols st row).writes = st.writes ++ ext1 := hext1
    obtain ⟨ext2, hext2, hprop2, hnd2⟩ :=
      ih (processRow P tci cols st row) (List.nodup_cons.mp hnd).2
    refine ⟨ext1 ++ ext2, ?_, ?_, ?_⟩
    · rw [hext2, hext1b, List.append_assoc]
    · intro w hwm
      rcases List.mem_append.mp hwm with hw1 | hw2
      · rw [List.mem_cons]
        exact Or.inl (hprop1 w hw1).1
      · exact List.mem_cons_of_mem row (hprop2 w hw2)
    · rw [List.map_append]
      apply List.Nodup.append
      · apply List.Nodup.of_map (fun p : Nat × Int => p.2)
        simpa [List.map_map, Function.comp] using hnd1
      · exact hnd2
      · rw [List.disjoint_left]
        intro p hp1 hp2
        rw [List.mem_map] at hp1 hp2
        obtain ⟨w1, hw1, hpe1⟩ := hp1
        obtain ⟨w2, hw2, hpe2⟩ := hp2
        apply hrow
        have hfst : w2.1 = w1.1 := by
          have : (w1.1, w1.2.1) = (w2.1, w2.2.1) := by rw [hpe1, hpe2]
          exact (congrArg Prod.fst this).symm
        rw [← (hprop1 w1 hw1).1, ← hfst]
        exact hprop2 w2 hw2

/-- The restriction list handed to `process_chunk` has no duplicates (as
`parse_column_range` guarantees for the pipeline). -/
def tciNodup : Option (List Int) → Prop
  | none => True
  | some l => l.Nodup

instance (o : Option (List Int)) : Decidable (tciNodup o) :=
  match o with
  | none => isTrue trivial
  | some l => List.nodupDecidable l

theorem effectiveCols_nodup (tci : Option (List Int)) (cols : Int)
    (h : tciNodup tci) : (effectiveCols tci cols).Nodup := by
  cases tci with
  | none =>
    show ((List.range (min cols 108).toNat).map Int.ofNat).Nodup
    exact List.Nodup.map (fun a b hab => Int.ofNat.inj hab) (List.nodup_range _)
  | some l =>
    show (if l ≠ [] then l.filter (fun col_idx => col_idx < cols)
      else (List.range (min cols 108).toNat).map Int.ofNat).Nodup
    by_cases hl : l ≠ []
    · rw [if_pos hl]
      exact List.Nodup.filter _ h
    · rw [if_neg hl]
      exact List.Nodup.map (fun a b hab => Int.ofNat.inj hab) (List.nodup_range _)

theorem process_chunk_writes_nodup (P : List (String × String))
    (tci : Option (List Int)) (cols : Int) (s e : Nat) (g : Grid)
    (h : tciNodup tci) :
    ((process_chunk P tci cols s e g).writes.map (fun w => (w.1, w.2.1))).Nodup := by
  unfold process_chunk
  obtain ⟨ext, hext, _, hnd⟩ := foldRows_writes P tci cols
    (effectiveCols_nodup tci cols h) (List.range' s (e - s)) _
    (List.nodup_range' s (e - s))
  rw [hext]
  simpa using hnd

/-- Claim C5: in the find/replace engine the replacement pairs are applied
sequentially in declaration order to the progressively modified cell value,
case-insensitively, with per-pair counts tracked independently: for two
pairs, the final value is the second pair's substitution applied to the
first pair's output, the first pair's count is its substitution count on the
original value and the second pair's count is its count on the modified
value; on pairs `[("A","B"), ("B","C")]` and a cell `"A"` the engine leaves
`"C"` with count 1 for each pair; and every cell is written at most once per
chunk, however many pairs matched. -/
theorem claim5_sequential_chaining_and_single_write :
    (∀ (f1 r1 f2 r2 v : String) (d : List (String × Nat)) (a b : Nat),
      f1 ≠ f2 → dictGet d f1 = some a → dictGet d f2 = some b →
      (apply_patterns [(f1, r1), (f2, r2)] v d).1 =
        (subnCI f2 r2 (subnCI f1 r1 v).1).1 ∧
      dictGet (apply_patterns [(f1, r1), (f2, r2)] v d).2.1 f1 =
        some (a + (subnCI f1 r1 v).2) ∧
      dictGet (apply_patterns [(f1, r1), (f2, r2)] v d).2.1 f2 =
        some (b + (subnCI f2 r2 (subnCI f1 r1 v).1).2)) ∧
    ((process_chunk [("A", "B"), ("B", "C")] none 1 0 1 [[CellValue.vstr "A"]]).grid =
        [[CellValue.vstr "C"]] ∧
      (process_chunk [("A", "B"), ("B", "C")] none 1 0 1
          [[CellValue.vstr "A"]]).chunk_replacements = [("A", 1), ("B", 1)] ∧
      (process_chunk [("A", "B"), ("B", "C")] none 1 0 1
          [[CellValue.vstr "A"]]).writes = [(0, 0, "C")]) ∧
    (∀ (P : List (String × String)) (tci : Option (List Int)) (cols : Int)
      (s e : Nat) (g : Grid), tciNodup tci →
      ((process_chunk P tci cols s e g).writes.map (fun w => (w.1, w.2.1))).Nodup) := by
  refine ⟨?_, ⟨by decide, by decide, by decide⟩, process_chunk_writes_nodup⟩
  intro f1 r1 f2 r2 v d a b hne ha hb
  unfold apply_patterns
  rw [List.foldl_cons, List.foldl_cons, List.foldl_nil]
  dsimp only
  by_cases h1 : 0 < (subnCI f1 r1 v).2
  · rw [if_pos h1]
    dsimp only
    by_cases h2 : 0 < (subnCI f2 r2 (subnCI f1 r1 v).1).2
    · rw [if_pos h2]
      refine ⟨rfl, ?_, ?_⟩
      · rw [dictGet_dictAdd_ne _ f2 _ f1 hne]
        exact dictGet_dictAdd_same d f1 _ a ha
      · apply dictGet_dictAdd_same
        rw [dictGet_dictAdd_ne _ f1 _ f2 (fun he => hne he.symm)]
        exact hb
    · rw [if_neg h2]
      have hz : (subnCI f2 r2 (subnCI f1 r1 v).1).2 = 0 := by omega
      refine ⟨?_, ?_, ?_⟩
      · rw [subnCI_zero _ _ _ hz]
      · exact dictGet_dictAdd_same d f1 _ a ha
      · rw [hz, dictGet_dictAdd_ne _ f1 _ f2 (fun he => hne he.symm), hb]
        simp
  · rw [if_neg h1]
    dsimp only
    have hz1 : (subnCI f1 r1 v).2 = 0 := by omega
    have hv1 : (subnCI f1 r1 v).1 = v := subnCI_zero _ _ _ hz1
    rw [hv1]
    by_cases h2 : 0 < (subnCI f2 r2 v).2
    · rw [if_pos h2]
      refine ⟨rfl, ?_, ?_⟩
      · rw [dictGet_dictAdd_ne _ f2 _ f1 hne, ha, hz1]
        simp
      · exact dictGet_dictAdd_same d f2 _ b hb
    · rw [if_neg h2]
      have hz2 : (subnCI f2 r2 v).2 = 0 := by omega
      refine ⟨?_, ?_, ?_⟩
      · rw [subnCI_zero _ _ _ hz2]
      · rw [ha, hz1]
        simp
      · rw [hb, hz2]
        simp

/-- Witness for C5 at the concrete chained pairs of the claim. -/
theorem claim5_witness :
    (apply_patterns [("A", "B"), ("B", "C")] "A" [("A", 0), ("B", 0)]).1 =
      (subnCI "B" "C" (subnCI "A" "B" "A").1).1 ∧
    dictGet (apply_patterns [("A", "B"), ("B", "C")] "A" [("A", 0), ("B", 0)]).2.1 "A" =
      some (0 + (subnCI "A" "B" "A").2) ∧
    dictGet (apply_patterns [("A", "B"), ("B", "C")] "A" [("A", 0), ("B", 0)]).2.1 "B" =
      some (0 + (subnCI "B" "C" (subnCI "A" "B" "A").1).2) :=
  claim5_sequential_chaining_and_single_write.1 "A" "B" "B" "C" "A"
    [("A", 0), ("B", 0)] 0 0 (by decide) (by decide) (by decide)

/-- Claim C9 (amended): `process_chunk` reads and modifies only cells whose
row lies in the chunk's range and whose column lies in the effective column
set, leaving every other cell unchanged.  When a nonempty restriction is
given, the effective set is the restriction filtered to indices strictly
below the available column count; when the restriction is absent — or empty,
which Python truthiness treats the same way — it is the first
`min(availableCols, 108)` columns. -/
theorem claim9_effective_columns_and_frame :
    (∀ (P : List (String × String)) (tci : Option (List Int)) (cols : Int)
       (start_row end_row : Nat) (g : Grid) (r : Nat) (c : Int),
       (¬ (start_row ≤ r ∧ r < end_row) ∨ c ∉ effectiveCols tci cols) →
       getCell (process_chunk P tci cols start_row end_row g).grid r c =
         getCell g r c) ∧
    (∀ (l : List Int) (cols : Int), l ≠ [] →
       effectiveCols (some l) cols = l.filter (fun col_idx => col_idx < cols)) ∧
    (∀ cols : Int,
       effectiveCols none cols = (List.range (min cols 108).toNat).map Int.ofNat ∧
       effectiveCols (some []) cols =
         (List.range (min cols 108).toNat).map Int.ofNat) := by
  refine ⟨process_chunk_grid_frame, ?_, ?_⟩
  · intro l cols hl
    show (if l ≠ [] then l.filter (fun col_idx => col_idx < cols)
      else (List.range (min cols 108).toNat).map Int.ofNat) =
        l.filter (fun col_idx => col_idx < cols)
    rw [if_pos hl]
  · intro cols
    exact ⟨rfl, rfl⟩

/-- Counterexample to C9 as stated: with the empty column restriction (the
parse of a reversed range such as `C:A`), the claim's effective set — the
restriction filtered to `< cols` — is empty, so no cell may be touched; but
the engine falls back to the default columns and rewrites cell (0, 0). -/
theorem claim9_counterexample :
    ([] : List Int).filter (fun col_idx => col_idx < (1 : Int)) = [] ∧
    getCell (process_chunk [("A", "B")] (some []) 1 0 1
      [[CellValue.vstr "A"]]).grid 0 0 = CellValue.vstr "B" ∧
    CellValue.vstr "B" ≠ CellValue.vstr "A" := by
  refine ⟨rfl, by decide, by decide⟩

/-- Witness for C9's frame clause: a cell outside the effective column set
keeps its value. -/
theorem claim9_witness :
    getCell (process_chunk [("A", "B")] (some [0]) 2 0 1
      [[CellValue.vstr "A", CellValue.vstr "A"]]).grid 0 1 =
      getCell [[CellValue.vstr "A", CellValue.vstr "A"]] 0 1 :=
  claim9_effective_columns_and_frame.1 [("A", "B")] (some [0]) 2 0 1
    [[CellValue.vstr "A", CellValue.vstr "A"]] 0 1 (Or.inr (by decide))

/-! ### The rule-grouped lookup-and-update engine (excel_processor.py) -/

/-- A search-and-update rule as assembled in `main`
(`excel_processor.py` lines 534-540). -/
structure UpdateRule where
  name : String
  search_column : String
  search_value : String
  update_column : String
  target_value : String
deriving DecidableEq

/-- The column pair a rule is grouped by (lines 178-180). -/
def ruleKey (r : UpdateRule) : String × String := (r.search_column, r.update_column)

/-- The keys of `grouped_rules` in Python dict insertion order: first
occurrence of each column pair. -/
def groupKeys : List UpdateRule → List (String × String)
  | [] => []
  | r :: rs => ruleKey r :: (groupKeys rs).filter (fun k => k ≠ ruleKey r)

/-- A grouped rule as stored per column pair (lines 185-190): the search
value normalized (`str(...).strip().lower()`), the target kept verbatim. -/
structure GRule where
  name : String
  search_value : String
  target_value : String
deriving DecidableEq

/-- The group of one column pair, in rule order (lines 177-190). -/
def groupOf (rules : List UpdateRule) (key : String × String) : List GRule :=
  (rules.filter (fun r => ruleKey r = key)).map
    (fun r => { name := r.name,
                search_value := pyLower (pyStrip r.search_value),
                target_value := r.target_value })

/-- The lookup dict built at lines 207-210: forward insertion with
overwriting means the LAST rule of the group with a given normalized search
value wins. -/
def lookupLast (group : List GRule) (k : String) : Option (String × String) :=
  (group.reverse.find? (fun gr => gr.search_value == k)).map
    (fun gr => (gr.target_value, gr.name))

/-- State threaded through the rule engine's single pass. -/
structure RuleState where
  grid : Grid
  update_details : List (String × Nat)
  total_updates : Nat
  all_affected_rows : List Nat
deriving DecidableEq

/-- One row of the single pass (lines 213-244): read the search cell; on a
truthy value whose normalized text is a key of the lookup dict, read the
paired update cell; if its stripped string differs from the stripped target,
overwrite the cell with the target, bump that rule's counter and the total,
and record the 1-based row. -/
def ruleRowStep (group : List GRule) (search_col_idx update_col_idx : Int)
    (st : RuleState) (row_idx : Nat) : RuleState :=
  let search_cell_value := getCell st.grid row_idx search_col_idx
  if cellTruthy search_cell_value = true then
    let normalized_search := pyLower (pyStrip (pyStr search_cell_value))
    match lookupLast group normalized_search with
    | some (target_value, rule_name) =>
      let current_value := getCell st.grid row_idx update_col_idx
      let current_value_str :=
        if current_value = CellValue.vnone then "" else pyStr current_value
      if pyStrip current_value_str ≠ pyStrip target_value then
        { grid := setCell st.grid row_idx update_col_idx (CellValue.vstr target_value),
          update_details := dictAdd st.update_details rule_name 1,
          total_updates := st.total_updates + 1,
          all_affected_rows := natSetAdd st.all_affected_rows (row_idx + 1) }
      else st
    | none => st
  else st

/-- One column-pair group (lines 199-250): zero every group rule's counter
while the lookup dict is built (`update_details[rule['name']] = 0`), then
one pass over the capped row range. -/
def processGroup (rows_to_process : Nat) (rules : List UpdateRule)
    (st : RuleState) (key : String × String) : RuleState :=
  let group := groupOf rules key
  let search_col_idx := column_letter_to_index key.1
  let update_col_idx := column_letter_to_index key.2
  let st1 : RuleState :=
    { st with update_details :=
        group.foldl (fun d gr => dictSet d gr.name 0) st.update_details }
  (List.range rows_to_process).foldl (ruleRowStep group search_col_idx update_col_idx) st1

/-- Result of `process_sheet_with_rules`: the returned
`(total_updates, update_details)` plus the mutated grid. -/
structure RuleRunResult where
  total_updates : Nat
  update_details : List (String × Nat)
  grid : Grid
deriving DecidableEq

/-- `process_sheet_with_rules` (`excel_processor.py` lines 145-265), with
`max_rows_to_process` defaulting to 300 at every call site: model
`used_range is None` as the empty grid, cap the scan at
`min(rows, max_rows_to_process)` rows, group the rules by column pair and
run one pass per group.  The row-height touch-up is cosmetic and not
modelled. -/
def process_sheet_with_rules (g : Grid) (rules : List UpdateRule)
    (max_rows_to_process : Nat) : RuleRunResult :=
  if gridRows g = 0 then
    { total_updates := 0, update_details := [], grid := g }
  else
    let rows_to_process := min (gridRows g) max_rows_to_process
    let final := (groupKeys rules).foldl (processGroup rows_to_process rules)
      { grid := g, update_details := [], total_updates := 0, all_affected_rows := [] }
    { total_updates := final.total_updates,
      update_details := final.update_details,
      grid := final.grid }

/-! ### Sheet selection in both variants -/

/-- Worker for `collapse_ws`: `inWs` records whether the previous character
was part of a whitespace run already replaced by one space. -/
def collapseWsAux : Bool → List Char → List Char
  | _, [] => []
  | inWs, c :: rest =>
    if c.isWhitespace then
      if inWs then collapseWsAux true rest
      else ' ' :: collapseWsAux true rest
    else c :: collapseWsAux false rest

/-- Python `re.sub(r"\s+", " ", s)`: collapse every whitespace run to a
single space. -/
def collapse_ws (s : String) : String := ⟨collapseWsAux false s.data⟩

/-- `_normalize_sheet_name` (find/replace script lines 317-325): NFKC
normalisation (the identity on the ASCII names modelled here), strip,
collapse inner whitespace, lowercase. -/
def _normalize_sheet_name (name : String) : String :=
  pyLower (collapse_ws (pyStrip name))

/-- A per-sheet configuration record of the find/replace variant. -/
structure SheetConfig where
  columns : Option String
  enabled : Bool
deriving DecidableEq

/-- The configuration search of the find/replace variant's
`process_excel_with_xlwings` (lines 419-427): the first configuration entry
whose normalized name equals the normalized sheet name. -/
def find_sheet_config (sheet_configurations : List (String × SheetConfig))
    (sheet_name : String) : Option SheetConfig :=
  (sheet_configurations.find?
    (fun p => _normalize_sheet_name p.1 == _normalize_sheet_name sheet_name)).map
    (fun p => p.2)

/-- Whether the find/replace variant processes a sheet (lines 419-439): a
falsy (empty) configuration dict processes every sheet with no restriction;
otherwise the sheet needs a normalized-name match whose entry is enabled
(default `True`, already resolved into the record). -/
def sheet_selected_replace (sheet_configurations : List (String × SheetConfig))
    (sheet_name : String) : Bool :=
  if sheet_configurations = [] then true
  else
    match find_sheet_config sheet_configurations sheet_name with
    | none => false
    | some config => config.enabled

/-- The rule variant's per-sheet rule lookup (`excel_processor.py` lines
359-363): an EXACT dict lookup on the raw sheet name, with no
normalization. -/
def rules_for_sheet (sheet_rules : List (String × List UpdateRule))
    (sheet_name : String) : Option (List UpdateRule) :=
  (sheet_rules.find? (fun p => p.1 == sheet_name)).map (fun p => p.2)

/-- Whether the rule variant processes a sheet (lines 359-365): its raw name
must be a key of `sheet_rules` and the rule list must be nonempty. -/
def sheet_selected_rules (sheet_rules : List (String × List UpdateRule))
    (sheet_name : String) : Bool :=
  match rules_for_sheet sheet_rules sheet_name with
  | none => false
  | some rules => decide (rules ≠ [])

/-! ### Claims about sheet selection (C2) and the rule row pass (C4) -/

/-- Claim C2 (amended): in the find/replace variant, configuration matching
goes through `_normalize_sheet_name` — two sheet names with equal
normalizations (differing only in case or internal whitespace) find the same
configuration and the same selection outcome, a selected sheet always has a
normalized-name match whose entry is enabled, and a sheet with no
normalized-name match is never selected (given a truthy configuration dict).
In the rule variant, by contrast, selection is an exact dictionary lookup on
the raw sheet name (no normalization) with a nonempty rule list. -/
theorem claim2_sheet_matching_normalization :
    (∀ (cfgs : List (String × SheetConfig)) (n1 n2 : String),
      _normalize_sheet_name n1 = _normalize_sheet_name n2 →
      find_sheet_config cfgs n1 = find_sheet_config cfgs n2 ∧
      sheet_selected_replace cfgs n1 = sheet_selected_replace cfgs n2) ∧
    (∀ (cfgs : List (String × SheetConfig)) (n : String),
      sheet_selected_replace cfgs n = true → cfgs ≠ [] →
      ∃ p ∈ cfgs, _normalize_sheet_name p.1 = _normalize_sheet_name n ∧
        p.2.enabled = true) ∧
    (∀ (cfgs : List (String × SheetConfig)) (n : String), cfgs ≠ [] →
      (∀ p ∈ cfgs, _normalize_sheet_name p.1 ≠ _normalize_sheet_name n) →
      sheet_selected_replace cfgs n = false) ∧
    (∀ (srs : List (String × List UpdateRule)) (n : String),
      sheet_selected_rules srs n = true ↔
        ∃ rules, rules_for_sheet srs n = some rules ∧ rules ≠ []) ∧
    (∀ (srs : List (String × List UpdateRule)) (n : String)
       (rules : List UpdateRule),
      rules_for_sheet srs n = some rules → ∃ p ∈ srs, p.1 = n ∧ p.2 = rules) := by
  refine ⟨?_, ?_, ?_, ?_, ?_⟩
  · intro cfgs n1 n2 hn
    have hfn : find_sheet_config cfgs n1 = find_sheet_config cfgs n2 := by
      unfold find_sheet_config
      rw [show (fun p : String × SheetConfig =>
          _normalize_sheet_name p.1 == _normalize_sheet_name n1) =
        (fun p : String × SheetConfig =>
          _normalize_sheet_name p.1 == _normalize_sheet_name n2) from
        funext (fun p => by rw [hn])]
    refine ⟨hfn, ?_⟩
    unfold sheet_selected_replace
    rw [hfn]
  · intro cfgs n hsel hne
    unfold sheet_selected_replace at hsel
    rw [if_neg hne] at hsel
    cases hf : find_sheet_config cfgs n with
    | none => rw [hf] at hsel; exact absurd hsel (by simp)
    | some config =>
      rw [hf] at hsel
      unfold find_sheet_config at hf
      rw [Option.map_eq_some'] at hf
      obtain ⟨p, hp, hpc⟩ := hf
      refine ⟨p, List.mem_of_find?_eq_some hp, ?_, ?_⟩
      · have := List.find?_some hp
        simpa using this
      · rw [hpc]; exact hsel
  · intro cfgs n hne hnone
    unfold sheet_selected_replace
    rw [if_neg hne]
    have hf : find_sheet_config cfgs n = none := by
      unfold find_sheet_config
      rw [Option.map_eq_none', List.find?_eq_none]
      intro p hp
      simp
      exact hnone p hp
    rw [hf]
  · intro srs n
    unfold sheet_selected_rules
    cases hf : rules_for_sheet srs n with
    | none =>
      simp only []
      constructor
      · intro h; exact absurd h (by simp)
      · rintro ⟨rules, hr, _⟩
        exact Option.noConfusion hr
    | some rules =>
      simp only [decide_eq_true_eq]
      constructor
      · intro h; exact ⟨rules, rfl, h⟩
      · rintro ⟨rules2, hr, hne2⟩
        have : rules = rules2 := Option.some.inj hr
        rw [this]; exact hne2
  · intro srs n rules hf
    unfold rules_for_sheet at hf
    rw [Option.map_eq_some'] at hf
    obtain ⟨p, hp, hpr⟩ := hf
    refine ⟨p, List.mem_of_find?_eq_some hp, ?_, hpr⟩
    have := List.find?_some hp
    simpa using this

/-- Counterexample to C2 as stated: in the rule variant a configured sheet
name matches only exactly.  The names `Sheet1` and `sheet1` normalize
identically, yet with the configuration keyed `sheet1` the sheet `Sheet1` is
not selected while `sheet1` is. -/
theorem claim2_counterexample :
    _normalize_sheet_name "Sheet1" = _normalize_sheet_name "sheet1" ∧
    sheet_selected_rules [("sheet1",
      [{ name := "R", search_column := "A", search_value := "x",
         update_column := "B", target_value := "t" }])] "Sheet1" = false ∧
    sheet_selected_rules [("sheet1",
      [{ name := "R", search_column := "A", search_value := "x",
         update_column := "B", target_value := "t" }])] "sheet1" = true := by
  refine ⟨by decide, by decide, by decide⟩

/-- Witness for C2 at a concrete configuration: names differing in case and
internal whitespace select the same configuration in the find/replace
variant. -/
theorem claim2_witness :
    find_sheet_config [("Sub  Categories", ⟨some "S", true⟩)] "sub categories" =
      find_sheet_config [("Sub  Categories", ⟨some "S", true⟩)] "SUB CATEGORIES" ∧
    sheet_selected_replace [("Sub  Categories", ⟨some "S", true⟩)] "sub categories" =
      sheet_selected_replace [("Sub  Categories", ⟨some "S", true⟩)] "SUB CATEGORIES" :=
  (claim2_sheet_matching_normalization.1 [("Sub  Categories", ⟨some "S", true⟩)]
    "sub categories" "SUB CATEGORIES" (by decide))

/-- Claim C4: in the rule engine's single pass, a row is updated exactly
when the search cell is truthy, its normalized (stripped, lowercased) text
is a key of the group's lookup dict — an exact whole-value match, not a
substring match — and the update cell's stripped text differs from the
stripped target; in that case the update cell is overwritten with the target
value and that rule's counter and the total are incremented, otherwise the
state is unchanged. -/
theorem claim4_exact_match_update :
    (∀ (group : List GRule) (sIdx uIdx : Int) (st : RuleState) (row : Nat),
      cellTruthy (getCell st.grid row sIdx) = false →
      ruleRowStep group sIdx uIdx st row = st) ∧
    (∀ (group : List GRule) (sIdx uIdx : Int) (st : RuleState) (row : Nat),
      lookupLast group (pyLower (pyStrip (pyStr (getCell st.grid row sIdx)))) = none →
      ruleRowStep group sIdx uIdx st row = st) ∧
    (∀ (group : List GRule) (sIdx uIdx : Int) (st : RuleState) (row : Nat)
       (target_value rule_name : String),
      cellTruthy (getCell st.grid row sIdx) = true →
      lookupLast group (pyLower (pyStrip (pyStr (getCell st.grid row sIdx)))) =
        some (target_value, rule_name) →
      (pyStrip (if getCell st.grid row uIdx = CellValue.vnone then ""
          else pyStr (getCell st.grid row uIdx)) ≠ pyStrip target_value →
        ruleRowStep group sIdx uIdx st row =
          { grid := setCell st.grid row uIdx (CellValue.vstr target_value),
            update_details := dictAdd st.update_details rule_name 1,
            total_updates := st.total_updates + 1,
            all_affected_rows := natSetAdd st.all_affected_rows (row + 1) }) ∧
      (pyStrip (if getCell st.grid row uIdx = CellValue.vnone then ""
          else pyStr (getCell st.grid row uIdx)) = pyStrip target_value →
        ruleRowStep group sIdx uIdx st row = st)) ∧
    (∀ (group : List GRule) (k : String),
      lookupLast group k = none ↔ ∀ gr ∈ group, gr.search_value ≠ k) := by
  refine ⟨?_, ?_, ?_, ?_⟩
  · intro group sIdx uIdx st row h
    unfold ruleRowStep
    rw [if_neg (by rw [h]; simp)]
  · intro group sIdx uIdx st row h
    unfold ruleRowStep
    by_cases ht : cellTruthy (getCell st.grid row sIdx) = true
    · rw [if_pos ht]
      dsimp only
      rw [h]
    · rw [if_neg ht]
  · intro group sIdx uIdx st row target_value rule_name ht hl
    unfold ruleRowStep
    rw [if_pos ht]
    dsimp only
    rw [hl]
    constructor
    · intro hdiff
      exact if_pos hdiff
    · intro heq
      have hnn : ¬ (pyStrip (if getCell st.grid row uIdx = CellValue.vnone then ""
          else pyStr (getCell st.grid row uIdx)) ≠ pyStrip target_value) :=
        fun hcon => hcon heq
      exact if_neg hnn
  · intro group k
    unfold lookupLast
    rw [Option.map_eq_none', List.find?_eq_none]
    constructor
    · intro h gr hgr
      have := h gr (List.mem_reverse.mpr hgr)
      simpa using this
    · intro h gr hgr
      simp only [beq_iff_eq, decide_eq_true_eq]
      exact h gr (List.mem_reverse.mp hgr)

/-- Witness for C4: a concrete row whose search cell matches exactly and
whose update cell differs from the target gets overwritten and counted. -/
theorem claim4_witness :
    ruleRowStep [{ name := "R", search_value := "x", target_value := "t" }] 0 1
      { grid := [[CellValue.vstr "x", CellValue.vstr "old"]],
        update_details := [("R", 0)], total_updates := 0,
        all_affected_rows := [] } 0 =
      { grid := setCell [[CellValue.vstr "x", CellValue.vstr "old"]] 0 1
          (CellValue.vstr "t"),
        update_details := dictAdd [("R", 0)] "R" 1,
        total_updates := 0 + 1,
        all_affected_rows := natSetAdd [] (0 + 1) } :=
  (claim4_exact_match_update.2.2.1
    [{ name := "R", search_value := "x", target_value := "t" }] 0 1
    { grid := [[CellValue.vstr "x", CellValue.vstr "old"]],
      update_details := [("R", 0)], total_updates := 0,
      all_affected_rows := [] } 0 "t" "R" (by decide) (by decide)).1 (by decide)

/-! ### The row cap (C6): frame lemmas at sheet level -/

theorem chunkStep_grid_frame (P : List (String × String))
    (tci : Option (List Int)) (cols : Int) (rows cs : Nat)
    (st : SheetRunState) (start_row : Nat) (r : Nat) (c : Int) (h : rows ≤ r) :
    getCell (chunkStep P tci cols rows cs st start_row).grid r c =
      getCell st.grid r c := by
  unfold chunkStep
  dsimp only
  split
  · exact process_chunk_grid_frame P tci cols start_row _ st.grid r c
      (Or.inl (by omega))
  · exact process_chunk_grid_frame P tci cols start_row _ st.grid r c
      (Or.inl (by omega))

theorem foldChunks_grid_frame (P : List (String × String))
    (tci : Option (List Int)) (cols : Int) (rows cs : Nat) (r : Nat) (c : Int)
    (h : rows ≤ r) :
    ∀ (starts : List Nat) (st : SheetRunState),
      getCell ((starts.foldl (chunkStep P tci cols rows cs) st).grid) r c =
        getCell st.grid r c := by
  intro starts
  induction starts with
  | nil => intro st; rfl
  | cons s0 rest ih =>
    intro st
    rw [List.foldl_cons, ih (chunkStep P tci cols rows cs st s0),
      chunkStep_grid_frame P tci cols rows cs st s0 r c h]

theorem process_sheet_in_chunks_frame (g : Grid)
    (pairs : List (String × String)) (rows : Nat) (cols : Int)
    (tci : Option (List Int)) (r : Nat) (c : Int) (h : rows ≤ r) :
    getCell (process_sheet_in_chunks g pairs rows cols tci).grid r c =
      getCell g r c := by
  unfold process_sheet_in_chunks
  dsimp only
  exact foldChunks_grid_frame pairs tci cols rows _ r c h _ _

/-- Every row step is either a no-op or the exact overwrite-and-count
update of the matched rule. -/
theorem ruleRowStep_cases (group : List GRule) (sIdx uIdx : Int)
    (st : RuleState) (row : Nat) :
    ruleRowStep group sIdx uIdx st row = st ∨
    ∃ target_value rule_name,
      lookupLast group (pyLower (pyStrip (pyStr (getCell st.grid row sIdx)))) =
        some (target_value, rule_name) ∧
      ruleRowStep group sIdx uIdx st row =
        { grid := setCell st.grid row uIdx (CellValue.vstr target_value),
          update_details := dictAdd st.update_details rule_name 1,
          total_updates := st.total_updates + 1,
          all_affected_rows := natSetAdd st.all_affected_rows (row + 1) } := by
  by_cases ht : cellTruthy (getCell st.grid row sIdx) = true
  · cases hl : lookupLast group (pyLower (pyStrip (pyStr (getCell st.grid row sIdx)))) with
    | none =>
      left
      unfold ruleRowStep
      rw [if_pos ht]
      dsimp only
      rw [hl]
    | some p =>
      obtain ⟨tv, rn⟩ := p
      by_cases hd : pyStrip (if getCell st.grid row uIdx = CellValue.vnone then ""
          else pyStr (getCell st.grid row uIdx)) ≠ pyStrip tv
      · right
        refine ⟨tv, rn, rfl, ?_⟩
        unfold ruleRowStep
        rw [if_pos ht]
        dsimp only
        rw [hl]
        exact if_pos hd
      · left
        unfold ruleRowStep
        rw [if_pos ht]
        dsimp only
        rw [hl]
        exact if_neg hd
  · left
    unfold ruleRowStep
    rw [if_neg ht]

theorem ruleRowStep_grid_frame (group : List GRule) (sIdx uIdx : Int)
    (st : RuleState) (row : Nat) (r : Nat) (c : Int) (h : r ≠ row) :
    getCell (ruleRowStep group sIdx uIdx st row).grid r c =
      getCell st.grid r c := by
  rcases ruleRowStep_cases group sIdx uIdx st row with he | ⟨tv, rn, _, he⟩
  · rw [he]
  · rw [he]
    exact getCell_setCell_ne st.grid row uIdx _ r c (fun hc => h hc.1)

theorem foldRuleRows_grid_frame (group : List GRule) (sIdx uIdx : Int)
    (r : Nat) (c : Int) :
    ∀ (rl : List Nat) (st : RuleState), r ∉ rl →
      getCell ((rl.foldl (ruleRowStep group sIdx uIdx) st).grid) r c =
        getCell st.grid r c := by
  intro rl
  induction rl with
  | nil => intro st _; rfl
  | cons row rest ih =>
    intro st hmem
    rw [List.foldl_cons,
      ih (ruleRowStep group sIdx uIdx st row)
        (fun hm => hmem (List.mem_cons_of_mem row hm)),
      ruleRowStep_grid_frame group sIdx uIdx st row r c
        (fun he => hmem (he ▸ List.mem_cons_self row rest))]

theorem processGroup_grid_frame (rows : Nat) (rules : List UpdateRule)
    (st : RuleState) (key : String × String) (r : Nat) (c : Int)
    (h : rows ≤ r) :
    getCell (processGroup rows rules st key).grid r c = getCell st.grid r c := by
  unfold processGroup
  dsimp only
  rw [foldRuleRows_grid_frame _ _ _ r c (List.range rows) _
    (fun hm => by rw [List.mem_range] at hm; omega)]

theorem foldGroups_grid_frame (rows : Nat) (rules : List UpdateRule)
    (r : Nat) (c : Int) (h : rows ≤ r) :
    ∀ (keys : List (String × String)) (st : RuleState),
      getCell ((keys.foldl (processGroup rows rules) st).grid) r c =
        getCell st.grid r c := by
  intro keys
  induction keys with
  | nil => intro st; rfl
  | cons k rest ih =>
    intro st
    rw [List.foldl_cons, ih (processGroup rows rules st k),
      processGroup_grid_frame rows rules st k r c h]

theorem foldCells_writes_sub (P : List (String × String)) (r : Nat) :
    ∀ (cl : List Int) (st : ChunkState),
      ∀ w ∈ (cl.foldl (fun s col_idx => processCell P s r col_idx) st).writes,
        w ∈ st.writes ∨ w.1 = r := by
  intro cl
  induction cl with
  | nil => intro st w hw; exact Or.inl hw
  | cons c cl ih =>
    intro st w hw
    rw [List.foldl_cons] at hw
    rcases ih (processCell P st r c) w hw with hw2 | hw2
    · rcases processCell_writes P st r c with he | ⟨v, he⟩
      · rw [he] at hw2; exact Or.inl hw2
      · rw [he] at hw2
        rcases List.mem_append.mp hw2 with hw3 | hw3
        · exact Or.inl hw3
        · right
          have : w = (r, c, v) := by simpa using hw3
          rw [this]
    · exact Or.inr hw2

theorem foldRows_writes_sub (P : List (String × String))
    (tci : Option (List Int)) (cols : Int) :
    ∀ (rl : List Nat) (st : ChunkState),
      ∀ w ∈ (rl.foldl (processRow P tci cols) st).writes,
        w ∈ st.writes ∨ w.1 ∈ rl := by
  intro rl
  induction rl with
  | nil => intro st w hw; exact Or.inl hw
  | cons row rl ih =>
    intro st w hw
    rw [List.foldl_cons] at hw
    rcases ih (processRow P tci cols st row) w hw with hw2 | hw2
    · rcases foldCells_writes_sub P row (effectiveCols tci cols) st w hw2 with hw3 | hw3
      · exact Or.inl hw3
      · exact Or.inr (by rw [hw3]; exact List.mem_cons_self row rl)
    · exact Or.inr (List.mem_cons_of_mem row hw2)

theorem process_chunk_writes_bound (P : List (String × String))
    (tci : Option (List Int)) (cols : Int) (s e : Nat) (g : Grid) :
    ∀ w ∈ (process_chunk P tci cols s e g).writes, w.1 < e := by
  intro w hw
  unfold process_chunk at hw
  rcases foldRows_writes_sub P tci cols (List.range' s (e - s)) _ w hw with hw2 | hw2
  · simp at hw2
  · rw [List.mem_range'_1] at hw2
    omega

theorem chunkStep_writes_bound (P : List (String × String))
    (tci : Option (List Int)) (cols : Int) (rows cs : Nat)
    (st : SheetRunState) (start_row : Nat) :
    ∀ w ∈ (chunkStep P tci cols rows cs st start_row).writes,
      w ∈ st.writes ∨ w.1 < rows := by
  intro w hw
  unfold chunkStep at hw
  dsimp only at hw
  have hsplit : w ∈ st.writes ++
      (process_chunk P tci cols start_row (min (start_row + cs) rows) st.grid).writes := by
    rcases (by exact hw : w ∈ (if (process_chunk P tci cols start_row
        (min (start_row + cs) rows) st.grid).chunk_replacements ≠ [] then
        ({ total_replacements := st.total_replacements + sumValues (process_chunk P tci cols start_row (min (start_row + cs) rows) st.grid).chunk_replacements,
           replacement_details := mergeCounts st.replacement_details (process_chunk P tci cols start_row (min (start_row + cs) rows) st.grid).chunk_replacements,
           affected := (process_chunk P tci cols start_row (min (start_row + cs) rows) st.grid).affected_rows.foldl natSetAdd st.affected,
           grid := (process_chunk P tci cols start_row (min (start_row + cs) rows) st.grid).grid,
           writes := st.writes ++ (process_chunk P tci cols start_row (min (start_row + cs) rows) st.grid).writes } : SheetRunState)
      else { st with
           grid := (process_chunk P tci cols start_row (min (start_row + cs) rows) st.grid).grid,
           writes := st.writes ++ (process_chunk P tci cols start_row (min (start_row + cs) rows) st.grid).writes }).writes) with h
    · revert h
      split <;> (intro h; exact h)
  rcases List.mem_append.mp hsplit with h1 | h1
  · exact Or.inl h1
  · right
    have := process_chunk_writes_bound P tci cols start_row
      (min (start_row + cs) rows) st.grid w h1
    omega

theorem foldChunks_writes_bound (P : List (String × String))
    (tci : Option (List Int)) (cols : Int) (rows cs : Nat) :
    ∀ (starts : List Nat) (st : SheetRunState),
      ∀ w ∈ ((starts.foldl (chunkStep P tci cols rows cs) st).writes),
        w ∈ st.writes ∨ w.1 < rows := by
  intro starts
  induction starts with
  | nil => intro st w hw; exact Or.inl hw
  | cons s0 rest ih =>
    intro st w hw
    rw [List.foldl_cons] at hw
    rcases ih (chunkStep P tci cols rows cs st s0) w hw with hw2 | hw2
    · exact chunkStep_writes_bound P tci cols rows cs st s0 w hw2
    · exact Or.inr hw2

theorem process_sheet_in_chunks_writes_bound (g : Grid)
    (pairs : List (String × String)) (rows : Nat) (cols : Int)
    (tci : Option (List Int)) :
    ∀ w ∈ (process_sheet_in_chunks g pairs rows cols tci).writes, w.1 < rows := by
  intro w hw
  unfold process_sheet_in_chunks at hw
  rcases foldChunks_writes_bound pairs tci cols rows _ _ _ w hw with hw2 | hw2
  · simp at hw2
  · exact hw2

/-- Claim C6: both engines process exactly the first `min(usedRows, cap)`
rows of a sheet — every write of the find/replace engine lands strictly
below `min(usedRows, 300)` (its hardcoded cap), every cell at or beyond the
cap keeps its value, and the rule engine (whose cap parameter defaults to
300 at every call site) likewise leaves every row at or beyond
`min(usedRows, cap)` untouched. -/
theorem claim6_row_cap :
    (∀ (g : Grid) (pairs : List (String × String)) (tc : Option String)
       (r : Nat) (c : Int), min (gridRows g) 300 ≤ r →
       getCell (process_sheet_intelligently g pairs tc).grid r c =
         getCell g r c) ∧
    (∀ (g : Grid) (pairs : List (String × String)) (tc : Option String),
       ∀ w ∈ (process_sheet_intelligently g pairs tc).writes,
         w.1 < min (gridRows g) 300) ∧
    (∀ (g : Grid) (rules : List UpdateRule) (cap : Nat) (r : Nat) (c : Int),
       min (gridRows g) cap ≤ r →
       getCell (process_sheet_with_rules g rules cap).grid r c =
         getCell g r c) := by
  refine ⟨?_, ?_, ?_⟩
  · intro g pairs tc r c h
    unfold process_sheet_intelligently
    split
    · rfl
    · split
      · rfl
      · dsimp only
        exact process_sheet_in_chunks_frame g pairs (min (gridRows g) 300) _ _ r c h
  · intro g pairs tc w hw
    unfold process_sheet_intelligently at hw
    split at hw
    · simp at hw
    · split at hw
      · simp at hw
      · exact process_sheet_in_chunks_writes_bound g pairs (min (gridRows g) 300)
          _ _ w hw
  · intro g rules cap r c h
    unfold process_sheet_with_rules
    split
    · rfl
    · dsimp only
      exact foldGroups_grid_frame (min (gridRows g) cap) rules r c h
        (groupKeys rules) _

/-- Witness for C6 at a 301-row sheet: row index 300 (the 301st row) is
beyond the cap and keeps its value in both engines. -/
theorem claim6_witness :
    getCell (process_sheet_intelligently
      (List.replicate 301 ([] : List CellValue)) [] none).grid 300 0 =
      getCell (List.replicate 301 ([] : List CellValue)) 300 0 ∧
    getCell (process_sheet_with_rules
      (List.replicate 2 ([] : List CellValue)) [] 1).grid 1 0 =
      getCell (List.replicate 2 ([] : List CellValue)) 1 0 :=
  ⟨claim6_row_cap.1 (List.replicate 301 ([] : List CellValue)) [] none 300 0
     (by decide),
   claim6_row_cap.2.2 (List.replicate 2 ([] : List CellValue)) [] 1 1 0
     (by decide)⟩

/-! ### Totals versus per-item counts (C10) -/

theorem sumValues_mergeCounts : ∀ (chunk d : List (String × Nat)),
    sumValues (mergeCounts d chunk) = sumValues d + sumValues chunk := by
  intro chunk
  induction chunk with
  | nil => intro d; simp [mergeCounts, sumValues]
  | cons kv rest ih =>
    intro d
    unfold mergeCounts at ih ⊢
    rw [List.foldl_cons, ih (dictAdd d kv.1 kv.2), sumValues_dictAdd]
    simp [sumValues]
    omega

theorem mem_dictSet_zero : ∀ (d : List (String × Nat)) (k : String)
    (kv : String × Nat), kv ∈ dictSet d k 0 → kv ∈ d ∨ kv.2 = 0 := by
  intro d
  induction d with
  | nil =>
    intro k kv h
    simp [dictSet] at h
    rw [h]
    exact Or.inr rfl
  | cons kv0 rest ih =>
    intro k kv h
    obtain ⟨k0, v0⟩ := kv0
    unfold dictSet at h
    by_cases hk : k0 = k
    · rw [if_pos hk] at h
      rcases List.mem_cons.mp h with rfl | h2
      · exact Or.inr rfl
      · exact Or.inl (List.mem_cons_of_mem _ h2)
    · rw [if_neg hk] at h
      rcases List.mem_cons.mp h with rfl | h2
      · exact Or.inl (List.mem_cons_self _ _)
      · rcases ih k kv h2 with h3 | h3
        · exact Or.inl (List.mem_cons_of_mem _ h3)
        · exact Or.inr h3

theorem sumValues_of_all_zero : ∀ (d : List (String × Nat)),
    (∀ kv ∈ d, kv.2 = 0) → sumValues d = 0 := by
  intro d
  induction d with
  | nil => intro _; rfl
  | cons kv rest ih =>
    intro h
    have h2 := ih (fun kv2 hm => h kv2 (List.mem_cons_of_mem kv hm))
    simp only [sumValues, List.map_cons, List.sum_cons] at h2 ⊢
    rw [h kv (List.mem_cons_self kv rest), h2]

theorem dictInit_all_zero (pairs : List (String × String)) :
    ∀ (d : List (String × Nat)), (∀ kv ∈ d, kv.2 = 0) →
      ∀ kv ∈ pairs.foldl (fun d2 p => dictSet d2 p.1 0) d, kv.2 = 0 := by
  induction pairs with
  | nil => intro d h kv hm; exact h kv hm
  | cons p rest ih =>
    intro d h kv hm
    rw [List.foldl_cons] at hm
    refine ih (dictSet d p.1 0) ?_ kv hm
    intro kv2 h2
    rcases mem_dictSet_zero d p.1 kv2 h2 with h3 | h3
    · exact h kv2 h3
    · exact h3

theorem chunkStep_total_inv (P : List (String × String))
    (tci : Option (List Int)) (cols : Int) (rows cs : Nat)
    (st : SheetRunState) (start_row : Nat)
    (h : st.total_replacements = sumValues st.replacement_details) :
    (chunkStep P tci cols rows cs st start_row).total_replacements =
      sumValues (chunkStep P tci cols rows cs st start_row).replacement_details := by
  unfold chunkStep
  dsimp only
  split
  · dsimp only
    rw [sumValues_mergeCounts, h]
  · exact h

theorem foldChunks_total_inv (P : List (String × String))
    (tci : Option (List Int)) (cols : Int) (rows cs : Nat) :
    ∀ (starts : List Nat) (st : SheetRunState),
      st.total_replacements = sumValues st.replacement_details →
      (starts.foldl (chunkStep P tci cols rows cs) st).total_replacements =
        sumValues (starts.foldl (chunkStep P tci cols rows cs) st).replacement_details := by
  intro starts
  induction starts with
  | nil => intro st h; exact h
  | cons s0 rest ih =>
    intro st h
    rw [List.foldl_cons]
    exact ih (chunkStep P tci cols rows cs st s0)
      (chunkStep_total_inv P tci cols rows cs st s0 h)

theorem process_sheet_in_chunks_total (g : Grid)
    (pairs : List (String × String)) (rows : Nat) (cols : Int)
    (tci : Option (List Int)) :
    (process_sheet_in_chunks g pairs rows cols tci).total_replacements =
      sumValues (process_sheet_in_chunks g pairs rows cols tci).replacement_details := by
  unfold process_sheet_in_chunks
  dsimp only
  apply foldChunks_total_inv
  exact (sumValues_of_all_zero _
    (dictInit_all_zero pairs [] (by simp))).symm

theorem dictGet_dictSet_self : ∀ (d : List (String × Nat)) (k : String) (v : Nat),
    dictGet (dictSet d k v) k = some v := by
  intro d
  induction d with
  | nil =>
    intro k v
    unfold dictSet dictGet
    rw [List.find?_cons_of_pos _ (by simp)]
    rfl
  | cons kv rest ih =>
    intro k v
    obtain ⟨k0, v0⟩ := kv
    unfold dictSet
    by_cases hk : k0 = k
    · rw [if_pos hk]
      unfold dictGet
      rw [List.find?_cons_of_pos _ (by simp [hk])]
      rfl
    · rw [if_neg hk]
      unfold dictGet
      rw [List.find?_cons_of_neg _ (by simp [hk])]
      exact ih k v

theorem dictGet_dictSet_ne : ∀ (d : List (String × Nat)) (k : String) (v : Nat)
    (k2 : String), k2 ≠ k → dictGet (dictSet d k v) k2 = dictGet d k2 := by
  intro d
  induction d with
  | nil =>
    intro k v k2 hne
    unfold dictSet dictGet
    rw [List.find?_cons_of_neg _ (by simp; exact fun he => hne he.symm)]
  | cons kv rest ih =>
    intro k v k2 hne
    obtain ⟨k0, v0⟩ := kv
    unfold dictSet
    by_cases hk : k0 = k
    · rw [if_pos hk]
      unfold dictGet
      by_cases hk2 : k0 = k2
      · exact absurd (hk2.symm.trans hk) hne
      · rw [List.find?_cons_of_neg _ (by simp [hk2]),
          List.find?_cons_of_neg _ (by simp [hk2])]
    · rw [if_neg hk]
      unfold dictGet
      by_cases hk2 : k0 = k2
      · rw [List.find?_cons_of_pos _ (by simp [hk2]),
          List.find?_cons_of_pos _ (by simp [hk2])]
      · rw [List.find?_cons_of_neg _ (by simp [hk2]),
          List.find?_cons_of_neg _ (by simp [hk2])]
        exact ih k v k2 hne

theorem sumValues_dictSet_zero : ∀ (d : List (String × Nat)) (k : String),
    (dictGet d k = none ∨ dictGet d k = some 0) →
    sumValues (dictSet d k 0) = sumValues d := by
  intro d
  induction d with
  | nil => intro k _; simp [dictSet, sumValues]
  | cons kv rest ih =>
    intro k h
    obtain ⟨k0, v0⟩ := kv
    unfold dictSet
    by_cases hk : k0 = k
    · rw [if_pos hk]
      have hv0 : v0 = 0 := by
        unfold dictGet at h
        rw [List.find?_cons_of_pos _ (by simp [hk])] at h
        rcases h with h | h
        · exact absurd h (by simp)
        · simpa using h
      simp [sumValues, hv0]
    · rw [if_neg hk]
      have h2 : dictGet rest k = none ∨ dictGet rest k = some 0 := by
        unfold dictGet at h
        rw [List.find?_cons_of_neg _ (by simp [hk])] at h
        exact h
      simp only [sumValues, List.map_cons, List.sum_cons]
      have := ih k h2
      simp only [sumValues] at this
      rw [this]

theorem dictGet_dictAdd_support (d : List (String × Nat)) (k : String) (n : Nat)
    (k2 : String) (h : dictGet (dictAdd d k n) k2 ≠ none) :
    dictGet d k2 ≠ none ∨ k2 = k := by
  by_cases hk : k2 = k
  · exact Or.inr hk
  · rw [dictGet_dictAdd_ne d k n k2 hk] at h
    exact Or.inl h

theorem dictGet_dictSet_support (d : List (String × Nat)) (k : String) (v : Nat)
    (k2 : String) (h : dictGet (dictSet d k v) k2 ≠ none) :
    dictGet d k2 ≠ none ∨ k2 = k := by
  by_cases hk : k2 = k
  · exact Or.inr hk
  · rw [dictGet_dictSet_ne d k v k2 hk] at h
    exact Or.inl h

theorem foldInit_sum : ∀ (group : List GRule) (d : List (String × Nat)),
    (∀ gr ∈ group, dictGet d gr.name = none ∨ dictGet d gr.name = some 0) →
    sumValues (group.foldl (fun d2 gr => dictSet d2 gr.name 0) d) = sumValues d := by
  intro group
  induction group with
  | nil => intro d _; rfl
  | cons gr rest ih =>
    intro d h
    rw [List.foldl_cons]
    rw [ih (dictSet d gr.name 0) ?hrest]
    · exact sumValues_dictSet_zero d gr.name (h gr (List.mem_cons_self gr rest))
    case hrest =>
      intro gr2 h2
      by_cases hname : gr2.name = gr.name
      · rw [hname, dictGet_dictSet_self]
        exact Or.inr rfl
      · rw [dictGet_dictSet_ne d gr.name 0 gr2.name hname]
        exact h gr2 (List.mem_cons_of_mem gr h2)

theorem foldInit_support : ∀ (group : List GRule) (d : List (String × Nat))
    (k2 : String),
    dictGet (group.foldl (fun d2 gr => dictSet d2 gr.name 0) d) k2 ≠ none →
    dictGet d k2 ≠ none ∨ ∃ gr ∈ group, gr.name = k2 := by
  intro group
  induction group with
  | nil => intro d k2 h; exact Or.inl h
  | cons gr rest ih =>
    intro d k2 h
    rw [List.foldl_cons] at h
    rcases ih (dictSet d gr.name 0) k2 h with h2 | ⟨gr2, hm, hn⟩
    · rcases dictGet_dictSet_support d gr.name 0 k2 h2 with h3 | h3
      · exact Or.inl h3
      · exact Or.inr ⟨gr, List.mem_cons_self gr rest, h3.symm⟩
    · exact Or.inr ⟨gr2, List.mem_cons_of_mem gr hm, hn⟩

theorem lookupLast_some_mem (group : List GRule) (k : String)
    (tv nm : String) (h : lookupLast group k = some (tv, nm)) :
    ∃ gr ∈ group, gr.name = nm := by
  unfold lookupLast at h
  rw [Option.map_eq_some'] at h
  obtain ⟨gr, hf, hpair⟩ := h
  refine ⟨gr, List.mem_reverse.mp (List.mem_of_find?_eq_some hf), ?_⟩
  exact congrArg Prod.snd hpair

theorem groupOf_names (rules : List UpdateRule) (key : String × String)
    (gr : GRule) (h : gr ∈ groupOf rules key) :
    ∃ r ∈ rules, r.name = gr.name ∧ ruleKey r = key := by
  unfold groupOf at h
  rw [List.mem_map] at h
  obtain ⟨r, hrm, hr⟩ := h
  rw [List.mem_filter] at hrm
  refine ⟨r, hrm.1, ?_, by simpa using hrm.2⟩
  rw [← hr]

theorem groupKeys_nodup : ∀ (rules : List UpdateRule), (groupKeys rules).Nodup := by
  intro rules
  induction rules with
  | nil => exact List.Pairwise.nil
  | cons r rest ih =>
    unfold groupKeys
    apply List.Nodup.cons
    · intro hmem
      rw [List.mem_filter] at hmem
      have := hmem.2
      simp at this
    · exact List.Nodup.filter _ ih

theorem rowFold_inv (group : List GRule) (sIdx uIdx : Int)
    (Q : String → Prop) (hQ : ∀ gr ∈ group, Q gr.name) :
    ∀ (rl : List Nat) (st : RuleState),
      st.total_updates = sumValues st.update_details →
      (∀ nm, dictGet st.update_details nm ≠ none → Q nm) →
      ((rl.foldl (ruleRowStep group sIdx uIdx) st).total_updates =
        sumValues (rl.foldl (ruleRowStep group sIdx uIdx) st).update_details ∧
       ∀ nm, dictGet (rl.foldl (ruleRowStep group sIdx uIdx) st).update_details nm ≠
         none → Q nm) := by
  intro rl
  induction rl with
  | nil => intro st h1 h2; exact ⟨h1, h2⟩
  | cons row rest ih =>
    intro st h1 h2
    rw [List.foldl_cons]
    rcases ruleRowStep_cases group sIdx uIdx st row with he | ⟨tv, nm, hl, he⟩
    · rw [he]
      exact ih st h1 h2
    · rw [he]
      apply ih
      · dsimp only
        rw [sumValues_dictAdd, h1]
      · intro nm2 hnm2
        dsimp only at hnm2
        rcases dictGet_dictAdd_support st.update_details nm 1 nm2 hnm2 with h3 | h3
        · exact h2 nm2 h3
        · obtain ⟨gr, hgm, hgn⟩ := lookupLast_some_mem group _ tv nm hl
          rw [h3, ← hgn]
          exact hQ gr hgm

theorem processGroup_inv (rows : Nat) (rules : List UpdateRule)
    (st : RuleState) (key : String × String) (P : List (String × String))
    (hH : ∀ r1 ∈ rules, ∀ r2 ∈ rules, r1.name = r2.name → ruleKey r1 = ruleKey r2)
    (hfresh : key ∉ P)
    (hInv : st.total_updates = sumValues st.update_details)
    (hDom : ∀ nm, dictGet st.update_details nm ≠ none →
      ∃ r ∈ rules, r.name = nm ∧ ruleKey r ∈ P) :
    ((processGroup rows rules st key).total_updates =
      sumValues (processGroup rows rules st key).update_details ∧
     ∀ nm, dictGet (processGroup rows rules st key).update_details nm ≠ none →
       ∃ r ∈ rules, r.name = nm ∧ ruleKey r ∈ key :: P) := by
  unfold processGroup
  dsimp only
  have hgroupfresh : ∀ gr ∈ groupOf rules key,
      dictGet st.update_details gr.name = none ∨
      dictGet st.update_details gr.name = some 0 := by
    intro gr hgr
    left
    by_contra hne
    obtain ⟨r, hrm, hrn, hrk⟩ := hDom gr.name hne
    obtain ⟨r2, hrm2, hrn2, hrk2⟩ := groupOf_names rules key gr hgr
    have := hH r hrm r2 hrm2 (hrn.trans hrn2.symm)
    rw [this, hrk2] at hrk
    exact hfresh hrk
  apply rowFold_inv
  · intro gr hgr
    obtain ⟨r, hrm, hrn, hrk⟩ := groupOf_names rules key gr hgr
    exact ⟨r, hrm, hrn, by rw [hrk]; exact List.mem_cons_self key P⟩
  · dsimp only
    rw [foldInit_sum (groupOf rules key) st.update_details hgroupfresh, hInv]
  · intro nm hnm
    dsimp only at hnm
    rcases foldInit_support (groupOf rules key) st.update_details nm hnm with h3 | h3
    · obtain ⟨r, hrm, hrn, hrk⟩ := hDom nm h3
      exact ⟨r, hrm, hrn, List.mem_cons_of_mem key hrk⟩
    · obtain ⟨gr, hgm, hgn⟩ := h3
      obtain ⟨r, hrm, hrn, hrk⟩ := groupOf_names rules key gr hgm
      exact ⟨r, hrm, hrn.trans hgn, by rw [hrk]; exact List.mem_cons_self key P⟩

theorem foldGroups_inv (rows : Nat) (rules : List UpdateRule)
    (hH : ∀ r1 ∈ rules, ∀ r2 ∈ rules, r1.name = r2.name → ruleKey r1 = ruleKey r2) :
    ∀ (keys : List (String × String)) (st : RuleState) (P : List (String × String)),
      keys.Nodup → (∀ k ∈ keys, k ∉ P) →
      st.total_updates = sumValues st.update_details →
      (∀ nm, dictGet st.update_details nm ≠ none →
        ∃ r ∈ rules, r.name = nm ∧ ruleKey r ∈ P) →
      (keys.foldl (processGroup rows rules) st).total_updates =
        sumValues (keys.foldl (processGroup rows rules) st).update_details := by
  intro keys
  induction keys with
  | nil => intro st P _ _ h1 _; exact h1
  | cons k rest ih =>
    intro st P hnd hdisj h1 h2
    rw [List.foldl_cons]
    obtain ⟨hInv2, hDom2⟩ := processGroup_inv rows rules st k P hH
      (hdisj k (List.mem_cons_self k rest)) h1 h2
    refine ih (processGroup rows rules st k) (k :: P)
      (List.nodup_cons.mp hnd).2 ?_ hInv2 hDom2
    intro k2 hk2 hk2mem
    rcases List.mem_cons.mp hk2mem with he | hmem
    · exact (List.nodup_cons.mp hnd).1 (he ▸ hk2)
    · exact hdisj k2 (List.mem_cons_of_mem k hk2) hmem

/-- Claim C10 (amended): in the find/replace engine the total replacement
count always equals the sum of the per-pair counts in the returned detail
mapping.  In the rule engine the total update count equals the sum of the
per-rule counts provided no rule name is shared between rules of different
column-pair groups; a name shared across groups is re-zeroed when the later
group initialises its counters (`update_details[rule['name']] = 0`), making
the sum undercount (see `claim10_counterexample`). -/
theorem claim10_total_equals_sum :
    (∀ (g : Grid) (pairs : List (String × String)) (tc : Option String),
      (process_sheet_intelligently g pairs tc).total_replacements =
        sumValues (process_sheet_intelligently g pairs tc).replacement_details) ∧
    (∀ (g : Grid) (rules : List UpdateRule) (cap : Nat),
      (∀ r1 ∈ rules, ∀ r2 ∈ rules, r1.name = r2.name → ruleKey r1 = ruleKey r2) →
      (process_sheet_with_rules g rules cap).total_updates =
        sumValues (process_sheet_with_rules g rules cap).update_details) := by
  constructor
  · intro g pairs tc
    unfold process_sheet_intelligently
    split
    · rfl
    · split
      · rfl
      · dsimp only
        exact process_sheet_in_chunks_total g pairs _ _ _
  · intro g rules cap hH
    unfold process_sheet_with_rules
    split
    · rfl
    · dsimp only
      exact foldGroups_inv (min (gridRows g) cap) rules hH (groupKeys rules) _ []
        (groupKeys_nodup rules) (fun k _ hk => by simp at hk) rfl
        (fun nm hnm => absurd rfl hnm)

/-- Counterexample to C10 as stated: two enabled rules named `R` in
different column-pair groups both fire on the same row; the engine reports
total 2, but the later group's counter initialisation reset the shared name,
so the per-rule counts sum to 1. -/
theorem claim10_counterexample :
    (process_sheet_with_rules
      [[CellValue.vstr "x", CellValue.vstr "", CellValue.vstr "x", CellValue.vstr ""]]
      [{ name := "R", search_column := "A", search_value := "x",
         update_column := "B", target_value := "t" },
       { name := "R", search_column := "C", search_value := "x",
         update_column := "D", target_value := "t" }] 300).total_updates = 2 ∧
    sumValues (process_sheet_with_rules
      [[CellValue.vstr "x", CellValue.vstr "", CellValue.vstr "x", CellValue.vstr ""]]
      [{ name := "R", search_column := "A", search_value := "x",
         update_column := "B", target_value := "t" },
       { name := "R", search_column := "C", search_value := "x",
         update_column := "D", target_value := "t" }] 300).update_details = 1 := by
  refine ⟨by decide, by decide⟩

/-- Witness for C10 at concrete runs of both engines. -/
theorem claim10_witness :
    (process_sheet_intelligently [[CellValue.vstr "A"]] [("A", "B")] none).total_replacements =
      sumValues (process_sheet_intelligently [[CellValue.vstr "A"]]
        [("A", "B")] none).replacement_details ∧
    (process_sheet_with_rules [[CellValue.vstr "x", CellValue.vstr ""]]
      [{ name := "R", search_column := "A", search_value := "x",
         update_column := "B", target_value := "t" }] 300).total_updates =
      sumValues (process_sheet_with_rules [[CellValue.vstr "x", CellValue.vstr ""]]
        [{ name := "R", search_column := "A", search_value := "x",
           update_column := "B", target_value := "t" }] 300).update_details :=
  ⟨claim10_total_equals_sum.1 [[CellValue.vstr "A"]] [("A", "B")] none,
   claim10_total_equals_sum.2 [[CellValue.vstr "x", CellValue.vstr ""]]
     [{ name := "R", search_column := "A", search_value := "x",
        update_column := "B", target_value := "t" }] 300 (by decide)⟩
